import Mathlib

/-!
Verification of the photography asset-pipeline scripts.

This file gives a shallow embedding of the core routines of the repository
(`scripts/utils/photo_metadata.py`, `ingest_photos.py`, `sync_collection.py`,
`sync_to_r2.py`) and proves or refutes the specification claims about them.

Python strings are modelled as `List Char` (`PyStr`); Python dicts that the
code only reads through key lookup are modelled as association lists; Python
`None`/absent values are `Option`; code paths that raise an uncaught exception
are modelled by an `Option`/`Except` result being `none`/`error`.
-/

/-- A Python string, modelled as its list of characters. -/
abbrev PyStr := List Char

/-- Association-list lookup, modelling Python dict access `d[k]` / `k in d`. -/
def alookup {α β : Type} [DecidableEq α] (k : α) : List (α × β) → Option β
  | [] => none
  | kv :: rest => if kv.1 = k then some kv.2 else alookup k rest

/-- Models Python `str.split(sep)` for a single-character separator:
always returns at least one (possibly empty) piece. -/
def splitOnChar (sep : Char) : List Char → List (List Char)
  | [] => [[]]
  | c :: cs =>
    match splitOnChar sep cs with
    | [] => [[]]
    | p :: ps => if c = sep then [] :: p :: ps else (c :: p) :: ps

/-- Models Python `'-'.join(pieces)`. -/
def joinHyphen : List (List Char) → List Char
  | [] => []
  | [p] => p
  | p :: ps => p ++ '-' :: joinHyphen ps

/-- Characters Python `str.strip()` removes (ASCII whitespace). -/
def isPySpace (c : Char) : Bool :=
  c = ' ' || c = '\t' || c = '\n' || c = '\r' || c.toNat = 11 || c.toNat = 12

/-- Models Python `str.strip()`. -/
def pyStrip (s : PyStr) : PyStr :=
  ((s.dropWhile isPySpace).reverse.dropWhile isPySpace).reverse

/-- Digit-run value; `none` on an empty or non-digit run. -/
def digitsToInt : List Char → Option Int
  | [] => none
  | ds =>
    if ds.all Char.isDigit then
      some (Int.ofNat (ds.foldl (fun a c => 10 * a + (c.toNat - 48)) 0))
    else none

/-- Models Python `int(s)` on decimal literals: optional surrounding
whitespace, optional sign, then digits; `none` models a `ValueError`.
(Digit-group underscores and non-ASCII digits are outside the model.) -/
def pyInt (s : PyStr) : Option Int :=
  match pyStrip s with
  | '+' :: ds => digitsToInt ds
  | '-' :: ds => (digitsToInt ds).map (fun n => -n)
  | ds => digitsToInt ds

/-- Models Python `str.lower()` (exact on ASCII, the identity elsewhere,
like `Char.toLower`). -/
def pyLower (s : PyStr) : PyStr := s.map Char.toLower

/-- Lexicographic comparison of code points: Python's `<=` on strings. -/
def pyLeB : PyStr → PyStr → Bool
  | [], _ => true
  | _ :: _, [] => false
  | a :: as, b :: bs =>
    if a.toNat < b.toNat then true
    else if a.toNat = b.toNat then pyLeB as bs
    else false

/-- Insert into a `pyLeB`-sorted list. -/
def insertLe (a : PyStr) : List PyStr → List PyStr
  | [] => [a]
  | b :: bs => if pyLeB a b then a :: b :: bs else b :: insertLe a bs

/-- Insertion sort by code-point order: models Python `sorted` on strings. -/
def sortPaths : List PyStr → List PyStr
  | [] => []
  | a :: as => insertLe a (sortPaths as)

/-! ## Data model (`photo_metadata.py`) -/

/-- `Location`: the four optional location fields of a photo. -/
structure Location where
  sublocation : Option PyStr
  city : Option PyStr
  state : Option PyStr
  country : Option PyStr
deriving DecidableEq, Repr

/-- `PhotoMetadata`: the metadata record built by `get_metadata`. -/
structure PhotoMetadata where
  keywords : List PyStr
  location : Option Location
  rating : Option Int
  date : Option PyStr
  camera_make : Option PyStr
  camera_model : Option PyStr
  lens_model : Option PyStr
  focal_length : Option ℚ
  aperture : Option ℚ
  shutter_speed : Option PyStr
  iso : Option Int
deriving DecidableEq, Repr

/-- Python truthiness of an optional string (`None` and `""` are falsy). -/
def strTruthy : Option PyStr → Bool
  | none => false
  | some s => s ≠ []

/-- `Location.__bool__`: true iff any location field is set (truthy). -/
def locTruthy (loc : Location) : Bool :=
  strTruthy loc.sublocation || strTruthy loc.city ||
    strTruthy loc.state || strTruthy loc.country

/-! ## Filter matcher (`photo_metadata.matches_filters`)

A filter spec is the dict passed to `matches_filters`, modelled as an
association list so that unrecognized keys can be represented. -/

abbrev FilterSpec := List (PyStr × PyStr)

def kwKey : PyStr := "keywords".toList
def locKey : PyStr := "location".toList
def ratKey : PyStr := "rating".toList
def dateKey : PyStr := "date".toList

/-- The keywords clause: split the filter value on commas, strip and
lowercase each term, pass iff some term is among the metadata's keywords. -/
def keywordsPass (m : PhotoMetadata) (v : PyStr) : Bool :=
  let fks := (splitOnChar ',' v).map (fun kw => pyLower (pyStrip kw))
  if fks ≠ [] then fks.any (fun fk => m.keywords.contains fk) else true

/-- One location field against the lowercased filter value: the field must
be truthy and equal (lowercased) to the filter value. -/
def fieldMatch (f : Option PyStr) (fl : PyStr) : Bool :=
  match f with
  | none => false
  | some s => s ≠ [] && fl = pyLower s

/-- The location clause of `matches_filters`. -/
def locationPass (m : PhotoMetadata) (v : PyStr) : Bool :=
  match m.location with
  | none => false
  | some loc =>
    if !locTruthy loc then false
    else
      let fl := pyLower v
      fieldMatch loc.sublocation fl || fieldMatch loc.city fl ||
        fieldMatch loc.state fl || fieldMatch loc.country fl

/-- The rating clause of `matches_filters`; `none` models the `ValueError`
raised by `int()` on a non-numeric filter value. -/
def ratingPass (m : PhotoMetadata) (v : PyStr) : Option Bool :=
  match m.rating with
  | none => some false
  | some r =>
    if r = 0 then some false
    else if v.contains '+' then
      match pyInt (v.filter (fun c => c ≠ '+')) with
      | none => none
      | some minRating => some (decide (minRating ≤ r))
    else
      match pyInt v with
      | none => none
      | some exactRating => some (decide (r = exactRating))

/-- The date clause: the metadata date must be truthy and start with the
filter value. -/
def datePass (m : PhotoMetadata) (v : PyStr) : Bool :=
  match m.date with
  | none => false
  | some d => d ≠ [] && v.isPrefixOf d

/-- `matches_filters(metadata, filters)`: `some b` is a returned boolean,
`none` models the uncaught `ValueError` of a non-numeric rating filter. -/
def matches_filters (m : PhotoMetadata) (filters : FilterSpec) : Option Bool :=
  if filters = [] then some false
  else
    let kOk := match alookup kwKey filters with
      | none => true
      | some v => keywordsPass m v
    if !kOk then some false
    else
      let lOk := match alookup locKey filters with
        | none => true
        | some v => locationPass m v
      if !lOk then some false
      else
        match (match alookup ratKey filters with
               | none => some true
               | some v => ratingPass m v) with
        | none => none
        | some false => some false
        | some true =>
          let dOk := match alookup dateKey filters with
            | none => true
            | some v => datePass m v
          some dOk

/-! ## Ingestion (`ingest_photos.py`) -/

/-- `date_string.split(':')[0].split('-')[0]`. -/
def firstToken (ds : PyStr) : PyStr :=
  (splitOnChar '-' ((splitOnChar ':' ds).headD [])).headD []

/-- `extract_year_from_date`: first piece of splitting on `:` then on `-`;
kept only when it is a 4-character all-digit token (`year.isdigit()` in
Python requires a nonempty all-digit string). -/
def extract_year_from_date (date : Option PyStr) : Option PyStr :=
  match date with
  | none => none
  | some ds =>
    if ds = [] then none
    else
      let year := firstToken ds
      if year ≠ [] && year.all Char.isDigit && year.length = 4 then some year
      else none

/-- Characters `sanitize_location` keeps: alphanumeric, hyphen, underscore
(`Char.isAlphanum` models Python `str.isalnum`, exact on ASCII). -/
def keepChar (c : Char) : Bool := c.isAlphanum || c = '-' || c = '_'

/-- Replace a character that is not kept by a hyphen. -/
def replaceChar (c : Char) : Char := if keepChar c then c else '-'

/-- `sanitize_location`: lowercase, replace non-kept characters with `-`,
drop empty hyphen-separated pieces and rejoin; `none` for an empty result. -/
def sanitize_location (location : PyStr) : Option PyStr :=
  if location = [] then none
  else
    let sanitized := (pyLower location).map replaceChar
    let collapsed := joinHyphen ((splitOnChar '-' sanitized).filter (fun p => p ≠ []))
    if collapsed = [] then none else some collapsed

/-- The destination path computed by `ingest_photo`, as its list of
segments `photos_root :: year :: location segments ++ [filename]`.
`none` models the uncaught `TypeError` raised by `dest_dir / None` when a
truthy state or city sanitizes to `None`. -/
def ingest_dest (photos_root : PyStr) (m : PhotoMetadata) (filename : PyStr) :
    Option (List PyStr) :=
  let year := (extract_year_from_date m.date).getD "unknown-year".toList
  match m.location with
  | none => some [photos_root, year, "unknown-location".toList, filename]
  | some loc =>
    if !locTruthy loc then some [photos_root, year, "unknown-location".toList, filename]
    else
      let location_parts : List (Option PyStr) :=
        (if strTruthy loc.state then [sanitize_location (loc.state.getD [])] else []) ++
          (if strTruthy loc.city then [sanitize_location (loc.city.getD [])] else [])
      if location_parts = [] then
        some [photos_root, year, "unknown-location".toList, filename]
      else if location_parts.all Option.isSome then
        some (photos_root :: year :: location_parts.filterMap id ++ [filename])
      else none

/-! ## Collection sync (`sync_collection.py`) -/

/-- A file of the photo tree as seen by `scan_photos`: its path relative to
the photos directory and the metadata `get_metadata` extracts from it. -/
structure FsEntry where
  relPath : PyStr
  meta : PhotoMetadata
deriving Repr

/-- Index just past the last `'.'` of a name, if any. -/
def lastDotStop : List Char → Option Nat
  | [] => none
  | c :: cs =>
    match lastDotStop cs with
    | some i => some (i + 1)
    | none => if c = '.' then some 1 else none

/-- Models `pathlib.Path.suffix`: the final extension of the last path
component, empty unless the last dot is strictly inside the name. -/
def pathSuffix (p : PyStr) : PyStr :=
  let name := (splitOnChar '/' p).getLastD []
  match lastDotStop name with
  | none => []
  | some i => if 1 < i ∧ i < name.length then name.drop (i - 1) else []

/-- The extension set `scan_photos` accepts. -/
def image_extensions : List PyStr :=
  [".jpg".toList, ".jpeg".toList, ".JPG".toList, ".JPEG".toList]

/-- Whether `scan_photos` treats a file as a photo. -/
def isImage (p : PyStr) : Bool := image_extensions.contains (pathSuffix p)

/-- The scan loop of `scan_photos` over the (unsorted) file listing:
collects relative paths of image files whose metadata matches; `none`
models the `ValueError` escaping from `matches_filters`. -/
def scanList (entries : List FsEntry) (filters : FilterSpec) : Option (List PyStr) :=
  match entries with
  | [] => some []
  | e :: es =>
    if isImage e.relPath then
      match matches_filters e.meta filters with
      | none => none
      | some true => (scanList es filters).map (fun rest => e.relPath :: rest)
      | some false => scanList es filters
    else scanList es filters

/-- `scan_photos`: the scan loop followed by `sorted(...)`. -/
def scan_photos (entries : List FsEntry) (filters : FilterSpec) : Option (List PyStr) :=
  (scanList entries filters).map sortPaths

/-- One member entry of a collection's `photos` list. -/
structure PhotoEntry where
  path : PyStr
  caption : PyStr
  alt : PyStr
deriving DecidableEq, Repr

/-- A collection record (the fields `sync_single_collection` touches);
`cover_path = []` models an absent or empty `cover_path`. -/
structure Collection where
  photos : List PhotoEntry
  cover_path : PyStr
  filters : FilterSpec
deriving DecidableEq, Repr

/-- `sync_single_collection` (the in-memory update; YAML I/O is out of
scope): skips manual collections, otherwise recomputes `photos` from the
scan and applies the cover policy.  `none` models an uncaught exception
from the scan. -/
def sync_single_collection (c : Collection) (entries : List FsEntry) :
    Option Collection :=
  if c.filters = [] then some c
  else
    (scan_photos entries c.filters).map (fun matching_photos =>
      let photos := matching_photos.map (fun p => PhotoEntry.mk p [] [])
      let cover :=
        match matching_photos with
        | [] => ([] : PyStr)
        | p :: _ => if c.cover_path = [] then p else c.cover_path
      { c with photos := photos, cover_path := cover })

/-! ## Remote mirror differencer (`sync_to_r2.sync_directory`) -/

/-- Local file metadata (`get_local_files` values): size and mtime.
Modification times are rationals (seconds). -/
structure LocalMeta where
  size : ℕ
  mtime : ℚ
deriving DecidableEq, Repr

/-- Remote object metadata (`list_r2_objects` values): `Size`, `LastModified`. -/
structure RemoteMeta where
  size : ℕ
  mtime : ℚ
deriving DecidableEq, Repr

abbrev Key := String
abbrev LocalMap := List (Key × LocalMeta)
abbrev RemoteMap := List (Key × RemoteMeta)

/-- The `to_upload` list built by `sync_directory`: each local key paired
with reason `"new"` (absent remotely) or `"updated"` (local mtime more
than one second ahead); size is never consulted. -/
def to_upload (localFiles : LocalMap) (r2Objects : RemoteMap) : List (Key × String) :=
  localFiles.filterMap (fun kv =>
    match alookup kv.1 r2Objects with
    | none => some (kv.1, "new")
    | some rm => if rm.mtime + 1 < kv.2.mtime then some (kv.1, "updated") else none)

/-- The `to_delete` list built by `sync_directory`: every remote key absent
from the local map. -/
def to_delete (localFiles : LocalMap) (r2Objects : RemoteMap) : List Key :=
  (r2Objects.map Prod.fst).filter (fun k => (alookup k localFiles).isNone)

/-- The full diff computed by one run of `sync_directory`. -/
def diff (localFiles : LocalMap) (r2Objects : RemoteMap) :
    List (Key × String) × List Key :=
  (to_upload localFiles r2Objects, to_delete localFiles r2Objects)

/-- A local file as stored remotely after an upload. -/
def asRemote (lm : LocalMeta) : RemoteMeta := RemoteMeta.mk lm.size lm.mtime

/-- Insert-or-replace a key in a remote map (dict update). -/
def upsert (m : RemoteMap) (k : Key) (v : RemoteMeta) : RemoteMap :=
  match m with
  | [] => [(k, v)]
  | kv :: rest => if kv.1 = k then (k, v) :: rest else kv :: upsert rest k v

/-- Simulate executing a diff's actions on the remote map: remove each
deleted key, then insert each uploaded key with the local entry's
metadata. -/
def applyDiff (localFiles : LocalMap) (r2Objects : RemoteMap) : RemoteMap :=
  let dels := to_delete localFiles r2Objects
  let afterDelete := r2Objects.filter (fun kv => !(dels.contains kv.1))
  (to_upload localFiles r2Objects).foldl (fun acc ku =>
    match alookup ku.1 localFiles with
    | some lm => upsert acc ku.1 (asRemote lm)
    | none => acc) afterDelete

/-! ## Metadata extractor (`photo_metadata.get_metadata`)

The byte-level tag search of `_read_xmp_from_jpg` is embedded concretely;
the XML parsing / namespace field extraction performed on the captured
span, and the Pillow EXIF tag decoding, are oracles carried by the file
model, with exceptions as `Except.error` values absorbed exactly where the
source's `try/except` blocks absorb them. -/

/-- The `xmp_metadata` dict assembled inside `_read_xmp_from_jpg`: each
key present only when the corresponding data was found. -/
structure XmpData where
  keywords : Option (List PyStr)
  location : Option Location
  rating : Option Int
deriving Repr

/-- The `exif_data` dict assembled by `_read_exif_data`. -/
structure ExifData where
  date : Option PyStr
  camera_make : Option PyStr
  camera_model : Option PyStr
  lens_model : Option PyStr
  focal_length : Option ℚ
  aperture : Option ℚ
  shutter_speed : Option PyStr
  iso : Option Int
deriving Repr

/-- Python dict truthiness for `exif_data`: empty iff no key was set. -/
def exifEmpty (e : ExifData) : Bool :=
  e.date.isNone && e.camera_make.isNone && e.camera_model.isNone &&
    e.lens_model.isNone && e.focal_length.isNone && e.aperture.isNone &&
      e.shutter_speed.isNone && e.iso.isNone

/-- Likewise for `xmp_metadata`. -/
def xmpEmpty (x : XmpData) : Bool :=
  x.keywords.isNone && x.location.isNone && x.rating.isNone

/-- First index of `pat` in `l`, models `bytes.find` (with `none` for -1). -/
def findSub (pat : List Char) : List Char → Option Nat
  | [] => if pat = [] then some 0 else none
  | c :: cs =>
    if pat.isPrefixOf (c :: cs) then some 0
    else (findSub pat cs).map (fun i => i + 1)

/-- One photo file as the extractor sees it.  `content` is the outcome of
`open(...).read()` (an `error` is an I/O exception); `xmlExtract` is the
outcome of `ET.fromstring` plus the namespace-qualified field extraction
applied to the captured XMP span (an `error` is any exception raised
there); `exifAccum` is whatever `_read_exif_data`'s `try` block had
accumulated in `exif_data` when it finished or was interrupted by an
exception (which its bare `except` swallows). -/
structure FsFile where
  content : Except PyStr (List Char)
  xmlExtract : List Char → Except PyStr XmpData
  exifAccum : ExifData

/-- The environment of `get_metadata`: whether Pillow imported, and the
files that exist. -/
structure FileSystem where
  pil : Bool
  files : String → Option FsFile

def xmpOpenTag : List Char := "<x:xmpmeta".toList
def xmpCloseTag : List Char := "</x:xmpmeta>".toList

/-- `_read_xmp_from_jpg`: locate the XMP packet, hand the span to the XML
extraction, absorb every exception into `none`, and return `none` as well
when no field was found. -/
def read_xmp_from_jpg (f : FsFile) : Option XmpData :=
  match f.content with
  | .error _ => none
  | .ok content =>
    match findSub xmpOpenTag content, findSub xmpCloseTag content with
    | some s, some e =>
      let xmpSpan := (content.drop s).take (e + 12 - s)
      match f.xmlExtract xmpSpan with
      | .error _ => none
      | .ok d => if xmpEmpty d then none else some d
    | some _, none => none
    | none, _ => none

/-- `_read_exif_data`: empty when Pillow is unavailable, otherwise the
accumulated tag dict (exceptions swallowed by the bare `except`). -/
def read_exif_data (pil : Bool) (f : FsFile) : ExifData :=
  if pil then f.exifAccum else ExifData.mk none none none none none none none none

/-- `get_metadata`: `none` exactly for a missing file, otherwise a record
assembled from whatever XMP and EXIF data could be read. -/
def get_metadata (fs : FileSystem) (p : String) : Option PhotoMetadata :=
  match fs.files p with
  | none => none
  | some f =>
    let md0 : PhotoMetadata :=
      PhotoMetadata.mk [] none none none none none none none none none none
    let md1 :=
      match read_xmp_from_jpg f with
      | none => md0
      | some x =>
        let mdk := match x.keywords with
          | some kws => { md0 with keywords := kws.map pyLower }
          | none => md0
        let mdl := match x.location with
          | some ld => { mdk with location := some ld }
          | none => mdk
        match x.rating with
        | some rt => { mdl with rating := some rt }
        | none => mdl
    let e := read_exif_data fs.pil f
    let md2 :=
      if exifEmpty e then md1
      else { md1 with
        date := e.date, camera_make := e.camera_make,
        camera_model := e.camera_model, lens_model := e.lens_model,
        focal_length := e.focal_length, aperture := e.aperture,
        shutter_speed := e.shutter_speed, iso := e.iso }
    some md2

/-! ## Association-list lemmas -/

theorem alookup_eq_none_of {α β : Type} [DecidableEq α] {k : α} {l : List (α × β)}
    (h : ∀ kv ∈ l, kv.1 ≠ k) : alookup k l = none := by
  induction l with
  | nil => rfl
  | cons kv rest ih =>
    simp only [alookup]
    rw [if_neg (h kv (by simp))]
    exact ih (fun x hx => h x (List.mem_cons_of_mem kv hx))

theorem alookup_cons_self {α β : Type} [DecidableEq α] (k : α) (v : β)
    (l : List (α × β)) : alookup k ((k, v) :: l) = some v := by
  simp [alookup]

theorem alookup_cons_ne {α β : Type} [DecidableEq α] {k k2 : α} (v : β)
    (l : List (α × β)) (h : k2 ≠ k) : alookup k ((k2, v) :: l) = alookup k l := by
  simp [alookup, h]

theorem mem_of_alookup_eq_some {α β : Type} [DecidableEq α] {k : α} {v : β}
    {l : List (α × β)} (h : alookup k l = some v) : (k, v) ∈ l := by
  induction l with
  | nil => simp [alookup] at h
  | cons kv rest ih =>
    simp only [alookup] at h
    by_cases hk : kv.1 = k
    · rw [if_pos hk] at h
      have hv : kv.2 = v := Option.some.inj h
      have : kv = (k, v) := by
        cases kv
        simp_all
      rw [← this]
      exact List.mem_cons_self kv rest
    · rw [if_neg hk] at h
      exact List.mem_cons_of_mem kv (ih h)

theorem alookup_isSome_iff {α β : Type} [DecidableEq α] {k : α} {l : List (α × β)} :
    (alookup k l).isSome = true ↔ ∃ v, (k, v) ∈ l := by
  constructor
  · intro h
    rcases Option.isSome_iff_exists.mp h with ⟨v, hv⟩
    exact ⟨v, mem_of_alookup_eq_some hv⟩
  · rintro ⟨v, hv⟩
    induction l with
    | nil => simp at hv
    | cons kv rest ih =>
      simp only [alookup]
      by_cases hk : kv.1 = k
      · rw [if_pos hk]; rfl
      · rw [if_neg hk]
        rcases List.mem_cons.mp hv with heq | hm
        · exact absurd (congrArg Prod.fst heq).symm hk
        · exact ih hm

theorem alookup_eq_none_iff {α β : Type} [DecidableEq α] {k : α} {l : List (α × β)} :
    alookup k l = none ↔ ∀ v, (k, v) ∉ l := by
  constructor
  · intro h v hv
    have := alookup_isSome_iff.mpr ⟨v, hv⟩
    rw [h] at this
    simp at this
  · intro h
    rcases he : alookup k l with _ | v
    · rfl
    · exact absurd (mem_of_alookup_eq_some he) (h v)

theorem alookup_eq_some_of_nodup {α β : Type} [DecidableEq α] {k : α} {v : β}
    {l : List (α × β)} (hn : (l.map Prod.fst).Nodup) (hm : (k, v) ∈ l) :
    alookup k l = some v := by
  induction l with
  | nil => simp at hm
  | cons kv rest ih =>
    simp only [alookup]
    rcases List.mem_cons.mp hm with heq | hmem
    · rw [if_pos (congrArg Prod.fst heq).symm]
      rw [← heq]
    · by_cases hk : kv.1 = k
      · exfalso
        have h1 : k ∈ rest.map Prod.fst := List.mem_map.mpr ⟨(k, v), hmem, rfl⟩
        have h2 := (List.nodup_cons.mp hn).1
        rw [hk] at h2
        exact h2 h1
      · rw [if_neg hk]
        exact ih (List.nodup_cons.mp hn).2 hmem

/-! ## Claim C1 -/

/-- A metadata record with every field absent. -/
def sampleMeta : PhotoMetadata :=
  PhotoMetadata.mk [] none none none none none none none none none none

/-- Claim C1 counterexample: the claim says a filter spec whose keys are
all unrecognized returns false, but `matches_filters` only short-circuits
on the empty dict; a spec holding just the unrecognized key `foo` falls
through every clause and returns `True`. -/
theorem claimC1_counterexample :
    matches_filters sampleMeta [("foo".toList, "bar".toList)] = some true := by
  decide

/-- Claim C1 (amended): `matches_filters` returns false for the empty
filter spec; a non-empty spec none of whose keys is recognized returns
true for every metadata record. -/
theorem claimC1_theorem (m : PhotoMetadata) :
    matches_filters m [] = some false ∧
    ∀ filters : FilterSpec, filters ≠ [] →
      (∀ kv ∈ filters, kv.1 ≠ kwKey ∧ kv.1 ≠ locKey ∧ kv.1 ≠ ratKey ∧ kv.1 ≠ dateKey) →
      matches_filters m filters = some true := by
  constructor
  · rfl
  · intro filters hne hkeys
    have hk : alookup kwKey filters = none :=
      alookup_eq_none_of (fun kv hv => (hkeys kv hv).1)
    have hl : alookup locKey filters = none :=
      alookup_eq_none_of (fun kv hv => (hkeys kv hv).2.1)
    have hr : alookup ratKey filters = none :=
      alookup_eq_none_of (fun kv hv => (hkeys kv hv).2.2.1)
    have hd : alookup dateKey filters = none :=
      alookup_eq_none_of (fun kv hv => (hkeys kv hv).2.2.2)
    simp [matches_filters, hne, hk, hl, hr, hd]

/-- Claim C1 witness: the amended theorem at a concrete record, the empty
spec and a concrete unrecognized-key spec. -/
theorem claimC1_witness :
    matches_filters sampleMeta [] = some false ∧
    matches_filters sampleMeta [("x-key".toList, "y".toList)] = some true :=
  ⟨(claimC1_theorem sampleMeta).1,
   (claimC1_theorem sampleMeta).2 [("x-key".toList, "y".toList)] (by decide) (by decide)⟩

/-! ## Claim C7 -/

/-- The keywords clause as applied by `matches_filters` to a spec. -/
def kwOk (m : PhotoMetadata) (fs : FilterSpec) : Bool :=
  match alookup kwKey fs with
  | none => true
  | some v => keywordsPass m v

/-- The location clause as applied by `matches_filters` to a spec. -/
def locOk (m : PhotoMetadata) (fs : FilterSpec) : Bool :=
  match alookup locKey fs with
  | none => true
  | some v => locationPass m v

/-- The rating clause as applied by `matches_filters` to a spec. -/
def ratOk (m : PhotoMetadata) (fs : FilterSpec) : Option Bool :=
  match alookup ratKey fs with
  | none => some true
  | some v => ratingPass m v

/-- The date clause as applied by `matches_filters` to a spec. -/
def dateOk (m : PhotoMetadata) (fs : FilterSpec) : Bool :=
  match alookup dateKey fs with
  | none => true
  | some v => datePass m v

theorem matches_filters_eq (m : PhotoMetadata) (fs : FilterSpec) :
    matches_filters m fs =
      if fs = [] then some false
      else if !kwOk m fs then some false
      else if !locOk m fs then some false
      else
        match ratOk m fs with
        | none => none
        | some false => some false
        | some true => some (dateOk m fs) := rfl

theorem matches_true_iff (m : PhotoMetadata) (fs : FilterSpec) :
    matches_filters m fs = some true ↔
      fs ≠ [] ∧ kwOk m fs = true ∧ locOk m fs = true ∧
        ratOk m fs = some true ∧ dateOk m fs = true := by
  rw [matches_filters_eq]
  by_cases hf : fs = []
  · simp [hf]
  · rw [if_neg hf]
    rcases hk : kwOk m fs with _ | _ <;>
      rcases hl : locOk m fs with _ | _ <;>
        rcases hr : ratOk m fs with _ | (_ | _) <;>
          simp [hf, hk, hl, hr]

theorem ratingPass_plus_iff (m : PhotoMetadata) (v : PyStr) (n : Int)
    (hc : v.contains '+' = true)
    (hp : pyInt (v.filter (fun c => c ≠ '+')) = some n) :
    ratingPass m v = some true ↔ ∃ r, m.rating = some r ∧ r ≠ 0 ∧ n ≤ r := by
  rcases hm : m.rating with _ | r
  · simp [ratingPass, hm]
  · simp only [ratingPass, hm]
    by_cases hr : r = 0
    · simp [hr]
    · rw [if_neg hr, if_pos hc, hp]
      simp [hr]

theorem kwOk_rating_cons (m : PhotoMetadata) (x : PyStr) (other : FilterSpec) :
    kwOk m ((ratKey, x) :: other) = kwOk m other := by
  unfold kwOk
  rw [alookup_cons_ne x other (by decide)]

theorem locOk_rating_cons (m : PhotoMetadata) (x : PyStr) (other : FilterSpec) :
    locOk m ((ratKey, x) :: other) = locOk m other := by
  unfold locOk
  rw [alookup_cons_ne x other (by decide)]

theorem dateOk_rating_cons (m : PhotoMetadata) (x : PyStr) (other : FilterSpec) :
    dateOk m ((ratKey, x) :: other) = dateOk m other := by
  unfold dateOk
  rw [alookup_cons_ne x other (by decide)]

theorem ratOk_rating_cons (m : PhotoMetadata) (x : PyStr) (other : FilterSpec) :
    ratOk m ((ratKey, x) :: other) = ratingPass m x := by
  unfold ratOk
  rw [alookup_cons_self ratKey x other]

/-- Replacing the rating value of a filter spec preserves a positive
match, provided the rating clause still passes. -/
theorem matches_rating_congr (m : PhotoMetadata) (other : FilterSpec) (v w : PyStr)
    (h : ratingPass m v = some true → ratingPass m w = some true) :
    matches_filters m ((ratKey, v) :: other) = some true →
    matches_filters m ((ratKey, w) :: other) = some true := by
  intro H
  rw [matches_true_iff, kwOk_rating_cons, locOk_rating_cons, dateOk_rating_cons,
    ratOk_rating_cons] at H
  rw [matches_true_iff, kwOk_rating_cons, locOk_rating_cons, dateOk_rating_cons,
    ratOk_rating_cons]
  exact ⟨List.cons_ne_nil _ _, H.2.1, H.2.2.1, h H.2.2.2.1, H.2.2.2.2⟩

/-- Claim C7 counterexample: a record whose rating is 0 satisfies
`0 ≥ 0`, yet the filter `"0+"` does not match (a zero rating is falsy and
is rejected before the threshold comparison). -/
theorem claimC7_counterexample :
    (0 : Int) ≤ 0 ∧
    matches_filters { sampleMeta with rating := some 0 }
      [(ratKey, "0+".toList)] = some false := by
  constructor
  · decide
  · decide

/-- Claim C7 (amended): for a rating filter of the form `N+`, a present
and nonzero rating `≥ N` satisfies the rating clause; and a record
matching `N+` also matches any `N'+` with `N' ≤ N`, the other filter keys
held fixed. -/
theorem claimC7_theorem (m : PhotoMetadata) (r n nLow : Int) (v w : PyStr)
    (other : FilterSpec)
    (hcv : v.contains '+' = true)
    (hpv : pyInt (v.filter (fun c => c ≠ '+')) = some n)
    (hcw : w.contains '+' = true)
    (hpw : pyInt (w.filter (fun c => c ≠ '+')) = some nLow)
    (hlow : nLow ≤ n) :
    (m.rating = some r → r ≠ 0 → n ≤ r → ratingPass m v = some true) ∧
    (matches_filters m ((ratKey, v) :: other) = some true →
      matches_filters m ((ratKey, w) :: other) = some true) := by
  constructor
  · intro hm hr0 hnr
    exact (ratingPass_plus_iff m v n hcv hpv).mpr ⟨r, hm, hr0, hnr⟩
  · refine matches_rating_congr m other v w ?_
    intro hv
    rcases (ratingPass_plus_iff m v n hcv hpv).mp hv with ⟨r2, hm2, hr2, hnr2⟩
    exact (ratingPass_plus_iff m w nLow hcw hpw).mpr ⟨r2, hm2, hr2, le_trans hlow hnr2⟩

/-- Claim C7 witness: a rating-4 record, filters `"4+"` and `"3+"`. -/
theorem claimC7_witness :
    ratingPass { sampleMeta with rating := some 4 } "4+".toList = some true ∧
    matches_filters { sampleMeta with rating := some 4 }
      [(ratKey, "3+".toList)] = some true := by
  have T := claimC7_theorem { sampleMeta with rating := some 4 } 4 4 3
    "4+".toList "3+".toList [] (by decide) (by decide) (by decide) (by decide)
    (by decide)
  exact ⟨T.1 rfl (by decide) (by decide), T.2 (by decide)⟩

/-! ## Claims C2 and C10 -/

/-- A local map with every size replaced through `sigma` (mtimes kept). -/
def withLocalSizes (sigma : Key → ℕ) (l : LocalMap) : LocalMap :=
  l.map (fun kv => (kv.1, LocalMeta.mk (sigma kv.1) kv.2.mtime))

/-- A remote map with every size replaced through `tau` (mtimes kept). -/
def withRemoteSizes (tau : Key → ℕ) (r : RemoteMap) : RemoteMap :=
  r.map (fun kv => (kv.1, RemoteMeta.mk (tau kv.1) kv.2.mtime))

theorem alookup_withRemoteSizes (tau : Key → ℕ) (r : RemoteMap) (k : Key) :
    alookup k (withRemoteSizes tau r) =
      (alookup k r).map (fun rm => RemoteMeta.mk (tau k) rm.mtime) := by
  induction r with
  | nil => rfl
  | cons kv rest ih =>
    simp only [withRemoteSizes, List.map_cons, alookup]
    by_cases hk : kv.1 = k
    · rw [if_pos hk, if_pos hk, hk]
      rfl
    · rw [if_neg hk, if_neg hk]
      exact ih

theorem alookup_withLocalSizes (sigma : Key → ℕ) (l : LocalMap) (k : Key) :
    alookup k (withLocalSizes sigma l) =
      (alookup k l).map (fun lm => LocalMeta.mk (sigma k) lm.mtime) := by
  induction l with
  | nil => rfl
  | cons kv rest ih =>
    simp only [withLocalSizes, List.map_cons, alookup]
    by_cases hk : kv.1 = k
    · rw [if_pos hk, if_pos hk, hk]
      rfl
    · rw [if_neg hk, if_neg hk]
      exact ih

/-- Membership of a `"new"` entry in the upload list. -/
theorem mem_to_upload_new_iff (l : LocalMap) (r : RemoteMap) (k : Key) :
    (k, "new") ∈ to_upload l r ↔
      (alookup k l).isSome = true ∧ alookup k r = none := by
  unfold to_upload
  rw [List.mem_filterMap]
  constructor
  · rintro ⟨kv, hkv, hf⟩
    rcases hre : alookup kv.1 r with _ | rm
    · simp only [hre] at hf
      have h1 : kv.1 = k := congrArg Prod.fst (Option.some.inj hf)
      rw [h1] at hre
      exact ⟨alookup_isSome_iff.mpr ⟨kv.2, by rw [← h1]; exact hkv⟩, hre⟩
    · simp only [hre] at hf
      by_cases hc : rm.mtime + 1 < kv.2.mtime
      · rw [if_pos hc] at hf
        have h2 : ("updated" : String) = "new" :=
          congrArg Prod.snd (Option.some.inj hf)
        exact absurd h2 (by decide)
      · rw [if_neg hc] at hf
        exact Option.noConfusion hf
  · rintro ⟨hsome, hnone⟩
    rcases Option.isSome_iff_exists.mp hsome with ⟨lm, hlm⟩
    refine ⟨(k, lm), mem_of_alookup_eq_some hlm, ?_⟩
    simp only [hnone]

/-- Membership of an `"updated"` entry in the upload list (keys of a dict
are unique). -/
theorem mem_to_upload_updated_iff (l : LocalMap) (r : RemoteMap) (k : Key)
    (hl : (l.map Prod.fst).Nodup) :
    (k, "updated") ∈ to_upload l r ↔
      ∃ lm rm, alookup k l = some lm ∧ alookup k r = some rm ∧
        rm.mtime + 1 < lm.mtime := by
  unfold to_upload
  rw [List.mem_filterMap]
  constructor
  · rintro ⟨kv, hkv, hf⟩
    rcases hre : alookup kv.1 r with _ | rm
    · simp only [hre] at hf
      have h2 : ("new" : String) = "updated" :=
        congrArg Prod.snd (Option.some.inj hf)
      exact absurd h2 (by decide)
    · simp only [hre] at hf
      by_cases hc : rm.mtime + 1 < kv.2.mtime
      · rw [if_pos hc] at hf
        have h1 : kv.1 = k := congrArg Prod.fst (Option.some.inj hf)
        refine ⟨kv.2, rm, ?_, by rw [← h1]; exact hre, hc⟩
        have hmem2 : (k, kv.2) ∈ l := by
          rw [← h1]
          exact hkv
        exact alookup_eq_some_of_nodup hl hmem2
      · rw [if_neg hc] at hf
        exact Option.noConfusion hf
  · rintro ⟨lm, rm, hlm, hrm, hc⟩
    refine ⟨(k, lm), mem_of_alookup_eq_some hlm, ?_⟩
    simp only [hrm, if_pos hc]

/-- Membership in the delete list. -/
theorem mem_to_delete_iff (l : LocalMap) (r : RemoteMap) (k : Key) :
    k ∈ to_delete l r ↔ (alookup k r).isSome = true ∧ alookup k l = none := by
  unfold to_delete
  rw [List.mem_filter]
  constructor
  · rintro ⟨hmem, hnone⟩
    rcases List.mem_map.mp hmem with ⟨kv, hkv, hfst⟩
    refine ⟨alookup_isSome_iff.mpr ⟨kv.2, ?_⟩, Option.isNone_iff_eq_none.mp hnone⟩
    rw [← hfst]
    exact hkv
  · rintro ⟨hsome, hnone⟩
    rcases Option.isSome_iff_exists.mp hsome with ⟨rm, hrm⟩
    exact ⟨List.mem_map.mpr ⟨(k, rm), mem_of_alookup_eq_some hrm, rfl⟩,
      by rw [hnone]; rfl⟩

/-- The key of any upload entry, as produced by the filter-map. -/
theorem to_upload_shape (l : LocalMap) (r : RemoteMap) :
    ∀ kv ∈ to_upload l r, ∃ kv0 ∈ l, kv0.1 = kv.1 := by
  intro kv hkv
  rcases List.mem_filterMap.mp hkv with ⟨kv0, hkv0, hf⟩
  refine ⟨kv0, hkv0, ?_⟩
  rcases hre : alookup kv0.1 r with _ | rm
  · simp only [hre] at hf
    exact congrArg Prod.fst (Option.some.inj hf)
  · simp only [hre] at hf
    by_cases hc : rm.mtime + 1 < kv0.2.mtime
    · rw [if_pos hc] at hf
      exact congrArg Prod.fst (Option.some.inj hf)
    · rw [if_neg hc] at hf
      exact Option.noConfusion hf

/-- Every upload entry's key is a key of the local map. -/
theorem to_upload_key_local (l : LocalMap) (r : RemoteMap) :
    ∀ kv ∈ to_upload l r, (alookup kv.1 l).isSome = true := by
  intro kv hkv
  rcases to_upload_shape l r kv hkv with ⟨kv0, hkv0, hfst⟩
  rw [← hfst]
  exact alookup_isSome_iff.mpr ⟨kv0.2, hkv0⟩

/-- With unique local keys, an upload entry at key `k` forces the stored
local metadata to be `alookup k l`. -/
theorem to_upload_entry_inv (l : LocalMap) (r : RemoteMap)
    (hl : (l.map Prod.fst).Nodup) {k : Key} {reason : String}
    (hmem : (k, reason) ∈ to_upload l r) :
    ∃ lm, alookup k l = some lm ∧
      (match alookup k r with
       | none => some (k, "new")
       | some rm => if rm.mtime + 1 < lm.mtime then some (k, "updated")
                    else none) = some (k, reason) := by
  rcases List.mem_filterMap.mp hmem with ⟨kv0, hkv0, hf⟩
  have hfst : kv0.1 = k := by
    rcases hre : alookup kv0.1 r with _ | rm
    · simp only [hre] at hf
      exact congrArg Prod.fst (Option.some.inj hf)
    · simp only [hre] at hf
      by_cases hc : rm.mtime + 1 < kv0.2.mtime
      · rw [if_pos hc] at hf
        exact congrArg Prod.fst (Option.some.inj hf)
      · rw [if_neg hc] at hf
        exact Option.noConfusion hf
  refine ⟨kv0.2, ?_, ?_⟩
  · apply alookup_eq_some_of_nodup hl
    rw [← hfst]
    exact hkv0
  · rw [hfst] at hf
    exact hf

/-- Claim C2: upload reasons and deletions of the differencer, exactly as
computed by `sync_directory`: `"new"` iff locally present and remotely
absent; `"updated"` iff present in both and the local mtime exceeds the
remote mtime by more than one second; deletion iff remotely present and
locally absent; a key within the tolerance triggers no action; and sizes
are never compared. -/
theorem claimC2_theorem (l : LocalMap) (r : RemoteMap)
    (hl : (l.map Prod.fst).Nodup) (hr : (r.map Prod.fst).Nodup) (k : Key) :
    ((k, "new") ∈ to_upload l r ↔
      (alookup k l).isSome = true ∧ alookup k r = none) ∧
    ((k, "updated") ∈ to_upload l r ↔
      ∃ lm rm, alookup k l = some lm ∧ alookup k r = some rm ∧
        rm.mtime + 1 < lm.mtime) ∧
    (k ∈ to_delete l r ↔ (alookup k r).isSome = true ∧ alookup k l = none) ∧
    (∀ lm rm, alookup k l = some lm → alookup k r = some rm →
      lm.mtime ≤ rm.mtime + 1 →
      (∀ reason, (k, reason) ∉ to_upload l r) ∧ k ∉ to_delete l r) ∧
    (∀ sigma tau,
      to_upload (withLocalSizes sigma l) (withRemoteSizes tau r) = to_upload l r ∧
      to_delete (withLocalSizes sigma l) (withRemoteSizes tau r) = to_delete l r) := by
  refine ⟨mem_to_upload_new_iff l r k, mem_to_upload_updated_iff l r k hl,
    mem_to_delete_iff l r k, ?_, ?_⟩
  · intro lm rm hlm hrm htol
    constructor
    · intro reason hmem
      rcases to_upload_entry_inv l r hl hmem with ⟨lm2, hlm2, hf⟩
      have hlmeq : lm2 = lm := by
        rw [hlm] at hlm2
        exact (Option.some.inj hlm2).symm
      rw [hlmeq, hrm] at hf
      simp only [] at hf
      rw [if_neg (not_lt.mpr htol)] at hf
      exact Option.noConfusion hf
    · intro hdel
      have hd2 := (mem_to_delete_iff l r k).mp hdel
      rw [hlm] at hd2
      exact Option.noConfusion hd2.2
  · intro sigma tau
    constructor
    · unfold to_upload withLocalSizes
      rw [List.filterMap_map]
      apply List.filterMap_congr
      intro kv _
      simp only [Function.comp]
      rw [alookup_withRemoteSizes]
      cases h2 : alookup kv.1 r <;> rfl
    · unfold to_delete withRemoteSizes
      rw [List.map_map]
      have h1 : (Prod.fst ∘ fun kv : Key × RemoteMeta =>
          (kv.1, RemoteMeta.mk (tau kv.1) kv.2.mtime)) = Prod.fst := rfl
      rw [h1]
      apply List.filter_congr
      intro k2 _
      rw [alookup_withLocalSizes]
      cases h2 : alookup k2 l <;> rfl

/-- Claim C2 witness: a two-key local map against a two-key remote map,
exercising the `"new"` reason at key `a`. -/
theorem claimC2_witness :
    (("a", "new") ∈ to_upload [("a", LocalMeta.mk 1 10), ("b", LocalMeta.mk 2 3)]
        [("b", RemoteMeta.mk 2 3), ("c", RemoteMeta.mk 4 5)] ↔
      (alookup "a" [("a", LocalMeta.mk 1 10), ("b", LocalMeta.mk 2 3)]).isSome = true ∧
        alookup "a" [("b", RemoteMeta.mk 2 3), ("c", RemoteMeta.mk 4 5)] = none) :=
  ((claimC2_theorem [("a", LocalMeta.mk 1 10), ("b", LocalMeta.mk 2 3)]
    [("b", RemoteMeta.mk 2 3), ("c", RemoteMeta.mk 4 5)]
    (by decide) (by decide) "a").1)

/-- Claim C10: the upload and delete sets are disjoint — every upload key
is a key of the local map, every delete key is absent from it. -/
theorem claimC10_theorem (l : LocalMap) (r : RemoteMap) :
    (∀ kv ∈ to_upload l r, (alookup kv.1 l).isSome = true) ∧
    (∀ k ∈ to_delete l r, alookup k l = none) ∧
    (∀ kv ∈ to_upload l r, kv.1 ∉ to_delete l r) := by
  refine ⟨to_upload_key_local l r, ?_, ?_⟩
  · intro k hk
    exact ((mem_to_delete_iff l r k).mp hk).2
  · intro kv hkv hdel
    have h1 := to_upload_key_local l r kv hkv
    have h2 := ((mem_to_delete_iff l r kv.1).mp hdel).2
    rw [h2] at h1
    exact Bool.noConfusion h1

/-- Claim C10 witness: with local `{a}` and remote `{b}`, the uploaded key
`a` is not scheduled for deletion. -/
theorem claimC10_witness :
    "a" ∉ to_delete [("a", LocalMeta.mk 1 10)] [("b", RemoteMeta.mk 1 0)] :=
  (claimC10_theorem [("a", LocalMeta.mk 1 10)] [("b", RemoteMeta.mk 1 0)]).2.2
    ("a", "new") (by decide)

/-! ## Claim C3 -/

theorem alookup_append {α β : Type} [DecidableEq α] (k : α)
    (l1 l2 : List (α × β)) :
    alookup k (l1 ++ l2) =
      match alookup k l1 with
      | some v => some v
      | none => alookup k l2 := by
  induction l1 with
  | nil => rfl
  | cons kv rest ih =>
    simp only [List.cons_append, alookup]
    by_cases hk : kv.1 = k
    · rw [if_pos hk, if_pos hk]
    · rw [if_neg hk, if_neg hk]
      exact ih

/-- Filtering away entries whose keys all differ from `k` leaves the
lookup of `k` unchanged. -/
theorem alookup_filter_of {α β : Type} [DecidableEq α] (k : α)
    (p : α × β → Bool) (l : List (α × β))
    (h : ∀ kv ∈ l, kv.1 = k → p kv = true) :
    alookup k (l.filter p) = alookup k l := by
  induction l with
  | nil => rfl
  | cons kv rest ih =>
    have ih2 := ih (fun x hx hxk => h x (List.mem_cons_of_mem kv hx) hxk)
    by_cases hk : kv.1 = k
    · rw [List.filter_cons, if_pos (h kv (List.mem_cons_self kv rest) hk)]
      simp only [alookup]
      rw [if_pos hk, if_pos hk]
    · rw [List.filter_cons]
      by_cases hp : p kv = true
      · rw [if_pos hp]
        simp only [alookup]
        rw [if_neg hk, if_neg hk]
        exact ih2
      · rw [if_neg hp]
        simp only [alookup]
        rw [if_neg hk]
        exact ih2

theorem alookup_upsert (m : RemoteMap) (k : Key) (v : RemoteMeta) (k2 : Key) :
    alookup k2 (upsert m k v) = if k2 = k then some v else alookup k2 m := by
  induction m with
  | nil =>
    unfold upsert
    simp only [alookup]
    by_cases hk2 : k2 = k
    · rw [if_pos (hk2.symm : k = k2), if_pos hk2]
    · rw [if_neg (fun h : k = k2 => hk2 h.symm), if_neg hk2]
  | cons kv rest ih =>
    unfold upsert
    by_cases hk : kv.1 = k
    · rw [if_pos hk]
      simp only [alookup]
      by_cases hk2 : k2 = k
      · rw [if_pos (hk2.symm : k = k2), if_pos hk2]
      · rw [if_neg (fun h : k = k2 => hk2 h.symm), if_neg hk2,
          if_neg (fun h : kv.1 = k2 => hk2 (h.symm.trans hk))]
    · rw [if_neg hk]
      simp only [alookup]
      by_cases hkk2 : kv.1 = k2
      · rw [if_pos hkk2, if_pos hkk2]
        by_cases hk2 : k2 = k
        · exact absurd (hkk2.trans hk2) hk
        · rw [if_neg hk2]
      · rw [if_neg hkk2, if_neg hkk2, ih]

/-- Entries of an upsert result are the upserted pair or original entries. -/
theorem upsert_mem (m : RemoteMap) (k : Key) (v : RemoteMeta) :
    ∀ kv ∈ upsert m k v, kv = (k, v) ∨ kv ∈ m := by
  intro kv hkv
  induction m with
  | nil =>
    left
    unfold upsert at hkv
    exact List.mem_singleton.mp hkv
  | cons kv0 rest ih =>
    unfold upsert at hkv
    by_cases hk : kv0.1 = k
    · rw [if_pos hk] at hkv
      rcases List.mem_cons.mp hkv with h | h
      · exact Or.inl h
      · exact Or.inr (List.mem_cons_of_mem kv0 h)
    · rw [if_neg hk] at hkv
      rcases List.mem_cons.mp hkv with h | h
      · exact Or.inr (by rw [h]; exact List.mem_cons_self kv0 rest)
      · rcases ih h with h2 | h2
        · exact Or.inl h2
        · exact Or.inr (List.mem_cons_of_mem kv0 h2)

/-- The upload step function used by `applyDiff`. -/
def uploadStep (l : LocalMap) (acc : RemoteMap) (ku : Key × String) : RemoteMap :=
  match alookup ku.1 l with
  | some lm => upsert acc ku.1 (asRemote lm)
  | none => acc

theorem applyDiff_eq_foldl (l : LocalMap) (r : RemoteMap) :
    applyDiff l r =
      (to_upload l r).foldl (uploadStep l)
        (r.filter (fun kv => !((to_delete l r).contains kv.1))) := rfl

/-- Keys never touched by the upload fold keep their lookup. -/
theorem foldl_uploadStep_lookup_notmem (l : LocalMap) (ups : List (Key × String))
    (k : Key) (hk : k ∉ ups.map Prod.fst) :
    ∀ acc, alookup k (ups.foldl (uploadStep l) acc) = alookup k acc := by
  induction ups with
  | nil => intro acc; rfl
  | cons ku rest ih =>
    intro acc
    have hk1 : k ∉ rest.map Prod.fst := fun h =>
      hk (List.mem_cons_of_mem _ h)
    have hkne : k ≠ ku.1 := by
      intro h
      exact hk (by rw [h]; exact List.mem_cons_self _ _)
    rw [List.foldl_cons, ih hk1]
    unfold uploadStep
    rcases alookup ku.1 l with _ | lm
    · rfl
    · rw [alookup_upsert, if_neg hkne]

/-- A key uploaded exactly once ends up carrying its local metadata. -/
theorem foldl_uploadStep_lookup_mem (l : LocalMap) (ups : List (Key × String))
    (hn : (ups.map Prod.fst).Nodup) (k : Key) (reason : String)
    (hmem : (k, reason) ∈ ups) (lm : LocalMeta) (hlm : alookup k l = some lm) :
    ∀ acc, alookup k (ups.foldl (uploadStep l) acc) = some (asRemote lm) := by
  induction ups with
  | nil => simp at hmem
  | cons ku rest ih =>
    intro acc
    rcases List.mem_cons.mp hmem with heq | hmem2
    · have hk1 : ku.1 = k := by rw [← heq]
      have hknotin : k ∉ rest.map Prod.fst := by
        have h2 := (List.nodup_cons.mp hn).1
        rw [hk1] at h2
        exact h2
      rw [List.foldl_cons, foldl_uploadStep_lookup_notmem l rest k hknotin]
      unfold uploadStep
      rw [hk1, hlm]
      simp only []
      rw [alookup_upsert, if_pos rfl]
    · have hn2 := (List.nodup_cons.mp hn).2
      rw [List.foldl_cons]
      exact ih hn2 hmem2 _

/-- The upload fold only adds keys from the upload list. -/
theorem foldl_uploadStep_keys (l : LocalMap) (ups : List (Key × String)) :
    ∀ acc kv, kv ∈ ups.foldl (uploadStep l) acc →
      kv.1 ∈ ups.map Prod.fst ∨ kv ∈ acc := by
  induction ups with
  | nil =>
    intro acc kv h
    exact Or.inr h
  | cons ku rest ih =>
    intro acc kv h
    rw [List.foldl_cons] at h
    rcases ih _ kv h with hin | hacc
    · exact Or.inl (List.mem_cons_of_mem _ hin)
    · unfold uploadStep at hacc
      rcases he : alookup ku.1 l with _ | lm
      · rw [he] at hacc
        exact Or.inr hacc
      · rw [he] at hacc
        rcases upsert_mem _ _ _ kv hacc with hk | hk
        · exact Or.inl (by rw [hk]; exact List.mem_cons_self _ _)
        · exact Or.inr hk

/-- The upload list's keys form a sublist of the local keys. -/
theorem to_upload_keys_sublist (l : LocalMap) (r : RemoteMap) :
    ((to_upload l r).map Prod.fst).Sublist (l.map Prod.fst) := by
  induction l with
  | nil => simp [to_upload]
  | cons kv rest ih =>
    unfold to_upload at ih ⊢
    rw [List.filterMap_cons]
    rcases he : alookup kv.1 r with _ | rm
    · simp only [he, List.map_cons]
      exact List.Sublist.cons₂ kv.1 ih
    · by_cases hc : rm.mtime + 1 < kv.2.mtime
      · simp only [he, if_pos hc, List.map_cons]
        exact List.Sublist.cons₂ kv.1 ih
      · simp only [he, if_neg hc, List.map_cons]
        exact List.Sublist.cons kv.1 ih

/-- Claim C3: the differencer is deterministic, and after simulating the
execution of its actions on the remote map a second diff is empty. -/
theorem claimC3_theorem (l : LocalMap) (r : RemoteMap)
    (hl : (l.map Prod.fst).Nodup) (hr : (r.map Prod.fst).Nodup) :
    diff l r = diff l r ∧
    to_upload l (applyDiff l r) = [] ∧
    to_delete l (applyDiff l r) = [] := by
  have hups_nodup : ((to_upload l r).map Prod.fst).Nodup :=
    List.Nodup.sublist (to_upload_keys_sublist l r) hl
  refine ⟨rfl, ?_, ?_⟩
  · unfold to_upload
    rw [List.filterMap_eq_nil_iff]
    intro kv hkv
    have hkv2 : (kv.1, kv.2) ∈ l := hkv
    have hlkv : alookup kv.1 l = some kv.2 := alookup_eq_some_of_nodup hl hkv2
    by_cases hk : kv.1 ∈ (to_upload l r).map Prod.fst
    · rcases List.mem_map.mp hk with ⟨ku, hku, hkeq⟩
      have hmem : (kv.1, ku.2) ∈ to_upload l r := by
        rw [← hkeq]
        exact hku
      have hlook : alookup kv.1 (applyDiff l r) = some (asRemote kv.2) := by
        rw [applyDiff_eq_foldl]
        exact foldl_uploadStep_lookup_mem l _ hups_nodup kv.1 ku.2 hmem kv.2 hlkv _
      simp only [hlook]
      rw [if_neg (show ¬((asRemote kv.2).mtime + 1 < kv.2.mtime) by
        simp only [asRemote]
        linarith)]
    · have hbase : alookup kv.1 (applyDiff l r) =
          alookup kv.1 (r.filter (fun kv2 => !((to_delete l r).contains kv2.1))) := by
        rw [applyDiff_eq_foldl]
        exact foldl_uploadStep_lookup_notmem l _ kv.1 hk _
      have hnotdel : kv.1 ∉ to_delete l r := by
        intro hdel
        have h2 := ((mem_to_delete_iff l r kv.1).mp hdel).2
        rw [hlkv] at h2
        exact Option.noConfusion h2
      have hfil : alookup kv.1
          (r.filter (fun kv2 => !((to_delete l r).contains kv2.1))) =
          alookup kv.1 r := by
        apply alookup_filter_of
        intro kv3 hkv3 hkeq3
        rw [hkeq3]
        simp [hnotdel]
      rcases hre : alookup kv.1 r with _ | rm
      · exfalso
        apply hk
        apply List.mem_map.mpr
        refine ⟨(kv.1, "new"), ?_, rfl⟩
        exact (mem_to_upload_new_iff l r kv.1).mpr
          ⟨alookup_isSome_iff.mpr ⟨kv.2, hkv2⟩, hre⟩
      · by_cases hc : rm.mtime + 1 < kv.2.mtime
        · exfalso
          apply hk
          apply List.mem_map.mpr
          refine ⟨(kv.1, "updated"), ?_, rfl⟩
          exact (mem_to_upload_updated_iff l r kv.1 hl).mpr ⟨kv.2, rm, hlkv, hre, hc⟩
        · have hlook : alookup kv.1 (applyDiff l r) = some rm := by
            rw [hbase, hfil, hre]
          simp only [hlook]
          rw [if_neg hc]
  · unfold to_delete
    rw [List.filter_eq_nil_iff]
    intro k hkmem
    rcases List.mem_map.mp hkmem with ⟨kv2, hkv2, hfst⟩
    rw [applyDiff_eq_foldl] at hkv2
    intro hnone
    have hnone2 : alookup k l = none := Option.isNone_iff_eq_none.mp hnone
    rcases foldl_uploadStep_keys l _ _ kv2 hkv2 with hin | hbase
    · rcases List.mem_map.mp hin with ⟨ku, hku, hkeq⟩
      have h2 := to_upload_key_local l r ku hku
      rw [hkeq, hfst, hnone2] at h2
      exact Bool.noConfusion h2
    · rcases List.mem_filter.mp hbase with ⟨hmem, hpred⟩
      have hdel : kv2.1 ∈ to_delete l r :=
        (mem_to_delete_iff l r kv2.1).mpr
          ⟨alookup_isSome_iff.mpr ⟨kv2.2, hmem⟩, by rw [hfst]; exact hnone2⟩
      rw [Bool.not_eq_true'] at hpred
      have hcontains : (to_delete l r).contains kv2.1 = true := by
        simp [hdel]
      rw [hpred] at hcontains
      exact Bool.noConfusion hcontains

/-- Claim C3 witness: a concrete run where one key is new, one updated,
one within tolerance, and one deleted; the second diff is empty. -/
theorem claimC3_witness :
    diff [("a", LocalMeta.mk 1 10), ("b", LocalMeta.mk 2 30), ("c", LocalMeta.mk 3 5)]
        [("b", RemoteMeta.mk 2 3), ("c", RemoteMeta.mk 3 5), ("d", RemoteMeta.mk 4 7)] =
      diff [("a", LocalMeta.mk 1 10), ("b", LocalMeta.mk 2 30), ("c", LocalMeta.mk 3 5)]
        [("b", RemoteMeta.mk 2 3), ("c", RemoteMeta.mk 3 5), ("d", RemoteMeta.mk 4 7)] ∧
    to_upload [("a", LocalMeta.mk 1 10), ("b", LocalMeta.mk 2 30), ("c", LocalMeta.mk 3 5)]
      (applyDiff [("a", LocalMeta.mk 1 10), ("b", LocalMeta.mk 2 30), ("c", LocalMeta.mk 3 5)]
        [("b", RemoteMeta.mk 2 3), ("c", RemoteMeta.mk 3 5), ("d", RemoteMeta.mk 4 7)]) = [] ∧
    to_delete [("a", LocalMeta.mk 1 10), ("b", LocalMeta.mk 2 30), ("c", LocalMeta.mk 3 5)]
      (applyDiff [("a", LocalMeta.mk 1 10), ("b", LocalMeta.mk 2 30), ("c", LocalMeta.mk 3 5)]
        [("b", RemoteMeta.mk 2 3), ("c", RemoteMeta.mk 3 5), ("d", RemoteMeta.mk 4 7)]) = [] :=
  claimC3_theorem
    [("a", LocalMeta.mk 1 10), ("b", LocalMeta.mk 2 30), ("c", LocalMeta.mk 3 5)]
    [("b", RemoteMeta.mk 2 3), ("c", RemoteMeta.mk 3 5), ("d", RemoteMeta.mk 4 7)]
    (by decide) (by decide)

/-! ## Claim C6 -/

/-- No two consecutive hyphens. -/
def noDD : List Char → Bool
  | [] => true
  | [_] => true
  | a :: b :: rest => !(a = '-' && b = '-') && noDD (b :: rest)

theorem noDD_of_not_mem {l : List Char} (h : '-' ∉ l) : noDD l = true := by
  induction l with
  | nil => rfl
  | cons a rest ih =>
    rcases rest with _ | ⟨b, rest2⟩
    · rfl
    · have ha : a ≠ '-' := fun hh => h (by rw [hh]; exact List.mem_cons_self _ _)
      have hrest : '-' ∉ b :: rest2 := fun hh => h (List.mem_cons_of_mem _ hh)
      unfold noDD
      rw [ih hrest]
      simp [ha]

theorem noDD_append_hyphen {p t : List Char} (hp : '-' ∉ p)
    (ht : noDD t = true) (hh : t.head? ≠ some '-') :
    noDD (p ++ '-' :: t) = true := by
  induction p with
  | nil =>
    simp only [List.nil_append]
    rcases t with _ | ⟨c, rest⟩
    · rfl
    · have hc : c ≠ '-' := by
        intro hcc
        exact hh (by rw [hcc]; rfl)
      unfold noDD
      rw [ht]
      simp [hc]
  | cons a p2 ih =>
    have ha : a ≠ '-' := fun hh2 => hp (by rw [hh2]; exact List.mem_cons_self _ _)
    have hp2 : '-' ∉ p2 := fun hh2 => hp (List.mem_cons_of_mem _ hh2)
    have ih2 := ih hp2
    rcases p2 with _ | ⟨b, p3⟩
    · simp only [List.nil_append] at ih2
      simp only [List.cons_append, List.nil_append]
      unfold noDD
      rw [ih2]
      simp [ha]
    · simp only [List.cons_append] at ih2 ⊢
      unfold noDD
      rw [ih2]
      simp [ha]

/-- Joining nonempty hyphen-free pieces: nonempty result. -/
theorem joinHyphen_ne_nil {qs : List (List Char)} (hq : qs ≠ [])
    (hne : ∀ p ∈ qs, p ≠ []) : joinHyphen qs ≠ [] := by
  rcases qs with _ | ⟨p, rest⟩
  · exact absurd rfl hq
  · rcases rest with _ | ⟨q, rest2⟩
    · exact hne p (List.mem_cons_self _ _)
    · unfold joinHyphen
      intro hcontra
      have := List.append_eq_nil.mp hcontra
      exact List.noConfusion this.2

theorem joinHyphen_head (qs : List (List Char)) (hne : ∀ p ∈ qs, p ≠ []) :
    qs = [] ∨ ∃ p ∈ qs, (joinHyphen qs).head? = p.head? := by
  rcases qs with _ | ⟨p, rest⟩
  · exact Or.inl rfl
  · right
    refine ⟨p, List.mem_cons_self _ _, ?_⟩
    rcases rest with _ | ⟨q, rest2⟩
    · rfl
    · unfold joinHyphen
      rw [List.head?_append]
      rcases hp : p.head? with _ | c
      · exact absurd (List.head?_eq_none_iff.mp hp) (hne p (List.mem_cons_self _ _))
      · rfl

theorem joinHyphen_getLast (qs : List (List Char)) (hne : ∀ p ∈ qs, p ≠ []) :
    qs = [] ∨ ∃ p ∈ qs, (joinHyphen qs).getLast? = p.getLast? := by
  induction qs with
  | nil => exact Or.inl rfl
  | cons p rest ih =>
    right
    rcases rest with _ | ⟨q, rest2⟩
    · exact ⟨p, List.mem_cons_self _ _, rfl⟩
    · have hne2 : ∀ x ∈ q :: rest2, x ≠ [] :=
        fun x hx => hne x (List.mem_cons_of_mem _ hx)
      rcases ih hne2 with h | ⟨p2, hp2, heq⟩
      · exact absurd h (List.cons_ne_nil q rest2)
      · refine ⟨p2, List.mem_cons_of_mem _ hp2, ?_⟩
        show (p ++ '-' :: joinHyphen (q :: rest2)).getLast? = p2.getLast?
        rw [List.getLast?_append, List.getLast?_cons]
        have hjoin_ne : joinHyphen (q :: rest2) ≠ [] :=
          joinHyphen_ne_nil (List.cons_ne_nil q rest2) hne2
        rcases hj : (joinHyphen (q :: rest2)).getLast? with _ | c
        · exact absurd (List.getLast?_eq_none_iff.mp hj) hjoin_ne
        · show some c = p2.getLast?
          rw [hj] at heq
          exact heq

theorem splitOnChar_ne_nil (sep : Char) (l : List Char) :
    splitOnChar sep l ≠ [] := by
  induction l with
  | nil => simp [splitOnChar]
  | cons c cs ih =>
    unfold splitOnChar
    rcases h : splitOnChar sep cs with _ | ⟨p, ps⟩
    · simp
    · by_cases hc : c = sep <;> simp [hc]

theorem splitOnChar_not_mem (sep : Char) (l : List Char) :
    ∀ p ∈ splitOnChar sep l, sep ∉ p := by
  induction l with
  | nil =>
    intro p hp
    rw [List.mem_singleton.mp hp]
    exact List.not_mem_nil sep
  | cons c cs ih =>
    intro p hp
    unfold splitOnChar at hp
    rcases h : splitOnChar sep cs with _ | ⟨p0, ps⟩
    · exact absurd h (splitOnChar_ne_nil sep cs)
    · rw [h] at hp ih
      simp only [] at hp
      by_cases hc : c = sep
      · rw [if_pos hc] at hp
        rcases List.mem_cons.mp hp with h2 | h2
        · rw [h2]
          exact List.not_mem_nil sep
        · exact ih p h2
      · rw [if_neg hc] at hp
        rcases List.mem_cons.mp hp with h2 | h2
        · rw [h2]
          intro hmem
          rcases List.mem_cons.mp hmem with h3 | h3
          · exact hc h3.symm
          · exact ih p0 (List.mem_cons_self p0 ps) h3
        · exact ih p (List.mem_cons_of_mem p0 h2)

theorem mem_of_mem_splitOnChar (sep : Char) (l : List Char) :
    ∀ p ∈ splitOnChar sep l, ∀ c ∈ p, c ∈ l := by
  induction l with
  | nil =>
    intro p hp c hc
    rw [List.mem_singleton.mp hp] at hc
    exact absurd hc (List.not_mem_nil c)
  | cons a cs ih =>
    intro p hp c hc
    unfold splitOnChar at hp
    rcases h : splitOnChar sep cs with _ | ⟨p0, ps⟩
    · exact absurd h (splitOnChar_ne_nil sep cs)
    · rw [h] at hp ih
      simp only [] at hp
      by_cases ha : a = sep
      · rw [if_pos ha] at hp
        rcases List.mem_cons.mp hp with h2 | h2
        · rw [h2] at hc
          exact absurd hc (List.not_mem_nil c)
        · exact List.mem_cons_of_mem a (ih p h2 c hc)
      · rw [if_neg ha] at hp
        rcases List.mem_cons.mp hp with h2 | h2
        · rw [h2] at hc
          rcases List.mem_cons.mp hc with h3 | h3
          · rw [h3]
            exact List.mem_cons_self a cs
          · exact List.mem_cons_of_mem a
              (ih p0 (List.mem_cons_self p0 ps) c h3)
        · exact List.mem_cons_of_mem a (ih p (List.mem_cons_of_mem p0 h2) c hc)

theorem splitOnChar_flatten (sep : Char) (l : List Char) :
    (splitOnChar sep l).flatten = l.filter (fun c => c ≠ sep) := by
  induction l with
  | nil => simp [splitOnChar]
  | cons c cs ih =>
    unfold splitOnChar
    rcases h : splitOnChar sep cs with _ | ⟨p0, ps⟩
    · exact absurd h (splitOnChar_ne_nil sep cs)
    · rw [h] at ih
      simp only []
      by_cases hc : c = sep
      · rw [if_pos hc]
        rw [List.filter_cons, if_neg (by simp [hc])]
        simp only [List.flatten_cons, List.nil_append]
        rw [← List.flatten_cons]
        exact ih
      · rw [if_neg hc]
        rw [List.filter_cons, if_pos (by simp [hc])]
        simp only [List.flatten_cons, List.cons_append]
        rw [← ih]
        rfl

theorem flatten_filter_ne_nil (ps : List (List Char)) :
    (ps.filter (fun p => p ≠ [])).flatten = ps.flatten := by
  induction ps with
  | nil => rfl
  | cons p rest ih =>
    rw [List.filter_cons]
    by_cases hp : p = []
    · rw [if_neg (by simp [hp])]
      rw [ih]
      simp [hp]
    · rw [if_pos (by simp [hp])]
      simp only [List.flatten_cons]
      rw [ih]

theorem joinHyphen_filter_hyphen (qs : List (List Char))
    (h : ∀ p ∈ qs, '-' ∉ p) :
    (joinHyphen qs).filter (fun c => c ≠ '-') = qs.flatten := by
  induction qs with
  | nil => rfl
  | cons p rest ih =>
    rcases rest with _ | ⟨q, rest2⟩
    · show p.filter (fun c => c ≠ '-') = List.flatten [p]
      rw [List.filter_eq_self.mpr (fun c hc => by
        have hcne : c ≠ '-' := fun hcc => h p (List.mem_cons_self p []) (hcc ▸ hc)
        simp [hcne])]
      simp
    · show (p ++ '-' :: joinHyphen (q :: rest2)).filter (fun c => c ≠ '-') = _
      rw [List.filter_append, List.filter_cons, if_neg (by simp)]
      rw [ih (fun x hx => h x (List.mem_cons_of_mem p hx))]
      rw [List.filter_eq_self.mpr (fun c hc => by
        have hcne : c ≠ '-' := fun hcc => h p (List.mem_cons_self p _) (hcc ▸ hc)
        simp [hcne])]
      rfl

theorem mem_joinHyphen {c : Char} {qs : List (List Char)}
    (h : c ∈ joinHyphen qs) : c = '-' ∨ ∃ p ∈ qs, c ∈ p := by
  induction qs with
  | nil => exact absurd h (List.not_mem_nil c)
  | cons p rest ih =>
    rcases rest with _ | ⟨q, rest2⟩
    · exact Or.inr ⟨p, List.mem_cons_self p [], h⟩
    · rcases List.mem_append.mp h with h2 | h2
      · exact Or.inr ⟨p, List.mem_cons_self p _, h2⟩
      · rcases List.mem_cons.mp h2 with h3 | h3
        · exact Or.inl h3
        · rcases ih h3 with h4 | ⟨p2, hp2, hc2⟩
          · exact Or.inl h4
          · exact Or.inr ⟨p2, List.mem_cons_of_mem p hp2, hc2⟩

theorem noDD_joinHyphen (qs : List (List Char)) (hne : ∀ p ∈ qs, p ≠ [])
    (hfree : ∀ p ∈ qs, '-' ∉ p) : noDD (joinHyphen qs) = true := by
  induction qs with
  | nil => rfl
  | cons p rest ih
  =>
    rcases rest with _ | ⟨q, rest2⟩
    · exact noDD_of_not_mem (hfree p (List.mem_cons_self p []))
    · have hne2 : ∀ x ∈ q :: rest2, x ≠ [] :=
        fun x hx => hne x (List.mem_cons_of_mem p hx)
      have hfree2 : ∀ x ∈ q :: rest2, '-' ∉ x :=
        fun x hx => hfree x (List.mem_cons_of_mem p hx)
      show noDD (p ++ '-' :: joinHyphen (q :: rest2)) = true
      apply noDD_append_hyphen (hfree p (List.mem_cons_self p _)) (ih hne2 hfree2)
      rcases joinHyphen_head (q :: rest2) hne2 with h | ⟨p2, hp2, heq⟩
      · exact absurd h (List.cons_ne_nil q rest2)
      · rw [heq]
        rcases hp2e : p2 with _ | ⟨c0, p2t⟩
        · exact absurd hp2e (hne2 p2 hp2)
        · simp only [List.head?_cons]
          intro hcontra
          have : c0 = '-' := Option.some.inj hcontra
          apply hfree2 p2 hp2
          rw [hp2e, ← this]
          exact List.mem_cons_self c0 p2t

/-- The nonempty hyphen-separated pieces used by `sanitize_location`. -/
def sanPieces (s : PyStr) : List PyStr :=
  (splitOnChar '-' ((pyLower s).map replaceChar)).filter (fun p => p ≠ [])

theorem sanPieces_def (s : PyStr) :
    (splitOnChar '-' ((pyLower s).map replaceChar)).filter (fun p => p ≠ []) =
      sanPieces s := rfl

theorem sanitize_some_inv {s r : PyStr} (h : sanitize_location s = some r) :
    r = joinHyphen (sanPieces s) ∧ sanPieces s ≠ [] := by
  simp only [sanitize_location] at h
  rw [sanPieces_def] at h
  by_cases hs : s = []
  · rw [if_pos hs] at h
    exact Option.noConfusion h
  · rw [if_neg hs] at h
    by_cases hc : joinHyphen (sanPieces s) = []
    · rw [if_pos hc] at h
      exact Option.noConfusion h
    · rw [if_neg hc] at h
      refine ⟨(Option.some.inj h).symm, ?_⟩
      intro hp
      apply hc
      rw [hp]
      rfl

theorem sanPieces_ne_nil (s : PyStr) : ∀ p ∈ sanPieces s, p ≠ [] := by
  intro p hp
  have h2 := (List.mem_filter.mp hp).2
  simpa using h2

theorem sanPieces_free (s : PyStr) : ∀ p ∈ sanPieces s, '-' ∉ p :=
  fun p hp => splitOnChar_not_mem '-' _ p (List.mem_filter.mp hp).1

/-- Claim C6: `sanitize_location` lowercases, replaces non-kept characters
with hyphens, collapses runs of hyphens, strips boundary hyphens, and is
absent exactly when nothing survives; with the two concrete examples of
the claim. -/
theorem claimC6_theorem :
    sanitize_location "New York!".toList = some "new-york".toList ∧
    sanitize_location "  ".toList = none ∧
    (∀ s r, sanitize_location s = some r →
      r ≠ [] ∧ r.head? ≠ some '-' ∧ r.getLast? ≠ some '-' ∧ noDD r = true ∧
      (∀ ch ∈ r, keepChar ch = true) ∧
      r.filter (fun ch => ch ≠ '-') =
        ((pyLower s).map replaceChar).filter (fun ch => ch ≠ '-')) ∧
    (∀ s, sanitize_location s = none ↔
      (s = [] ∨ ∀ ch ∈ s, replaceChar ch.toLower = '-')) := by
  refine ⟨by decide, by decide, ?_, ?_⟩
  · intro s r h
    obtain ⟨hr, hpne⟩ := sanitize_some_inv h
    have hne := sanPieces_ne_nil s
    have hfree := sanPieces_free s
    have hrne : r ≠ [] := by
      rw [hr]
      exact joinHyphen_ne_nil hpne hne
    refine ⟨hrne, ?_, ?_, ?_, ?_, ?_⟩
    · rw [hr]
      rcases joinHyphen_head _ hne with h0 | ⟨p, hp, heq⟩
      · exact absurd h0 hpne
      · rw [heq]
        rcases hpe : p with _ | ⟨c0, pt⟩
        · exact absurd hpe (hne p hp)
        · simp only [List.head?_cons]
          intro hcontra
          apply hfree p hp
          rw [hpe, ← Option.some.inj hcontra]
          exact List.mem_cons_self c0 pt
    · rw [hr]
      rcases joinHyphen_getLast _ hne with h0 | ⟨p, hp, heq⟩
      · exact absurd h0 hpne
      · rw [heq]
        intro hcontra
        exact hfree p hp (List.mem_of_mem_getLast? hcontra)
    · rw [hr]
      exact noDD_joinHyphen _ hne hfree
    · intro ch hch
      rw [hr] at hch
      rcases mem_joinHyphen hch with h0 | ⟨p, hp, hcp⟩
      · rw [h0]
        decide
      · have hin : ch ∈ (pyLower s).map replaceChar :=
          mem_of_mem_splitOnChar '-' _ p (List.mem_filter.mp hp).1 ch hcp
        rcases List.mem_map.mp hin with ⟨c0, _, hrep⟩
        rw [← hrep]
        unfold replaceChar
        by_cases hk : keepChar c0 = true
        · rw [if_pos hk]
          exact hk
        · rw [if_neg hk]
          decide
    · rw [hr, joinHyphen_filter_hyphen _ hfree]
      unfold sanPieces
      rw [flatten_filter_ne_nil, splitOnChar_flatten]
  · intro s
    simp only [sanitize_location]
    rw [sanPieces_def]
    by_cases hs : s = []
    · simp [hs]
    · rw [if_neg hs]
      have hchain : (sanPieces s).flatten =
          ((pyLower s).map replaceChar).filter (fun c => c ≠ '-') := by
        unfold sanPieces
        rw [flatten_filter_ne_nil, splitOnChar_flatten]
      constructor
      · intro h
        by_cases hc : joinHyphen (sanPieces s) = []
        · right
          have hpieces : sanPieces s = [] := by
            by_contra hp
            exact (joinHyphen_ne_nil hp (sanPieces_ne_nil s)) hc
          have hfil : ((pyLower s).map replaceChar).filter
              (fun c => c ≠ '-') = [] := by
            rw [← hchain, hpieces]
            rfl
          intro ch hch
          have hmem : replaceChar ch.toLower ∈ (pyLower s).map replaceChar := by
            apply List.mem_map.mpr
            refine ⟨ch.toLower, ?_, rfl⟩
            exact List.mem_map.mpr ⟨ch, hch, rfl⟩
          have h2 := List.filter_eq_nil_iff.mp hfil _ hmem
          simpa using h2
        · rw [if_neg hc] at h
          exact Option.noConfusion h
      · intro h
        rcases h with h | hall
        · exact absurd h hs
        · have hfil : ((pyLower s).map replaceChar).filter
              (fun c => c ≠ '-') = [] := by
            rw [List.filter_eq_nil_iff]
            intro x hx
            rcases List.mem_map.mp hx with ⟨c1, hc1, hrep⟩
            rcases List.mem_map.mp hc1 with ⟨c0, hc0, hlow⟩
            have hx2 := hall c0 hc0
            rw [← hrep, ← hlow]
            simp [hx2]
          have hpieces : sanPieces s = [] := by
            rcases hp : sanPieces s with _ | ⟨p, rest⟩
            · rfl
            · exfalso
              have hflat : (sanPieces s).flatten = [] := by
                rw [hchain, hfil]
              rw [hp] at hflat
              simp only [List.flatten_cons] at hflat
              have hpne2 : p ≠ [] := sanPieces_ne_nil s p (by rw [hp]; exact List.mem_cons_self p rest)
              exact hpne2 (List.append_eq_nil.mp hflat).1
          rw [hpieces]
          rfl

/-- Claim C6 witness: the structural clause applied to `"New York!"`. -/
theorem claimC6_witness :
    "new-york".toList ≠ [] ∧
    "new-york".toList.head? ≠ some '-' ∧
    "new-york".toList.getLast? ≠ some '-' ∧
    noDD "new-york".toList = true ∧
    (∀ ch ∈ "new-york".toList, keepChar ch = true) ∧
    "new-york".toList.filter (fun ch => ch ≠ '-') =
      ((pyLower "New York!".toList).map replaceChar).filter (fun ch => ch ≠ '-') :=
  claimC6_theorem.2.2.1 "New York!".toList "new-york".toList (by decide)

/-! ## Claim C5 -/

/-- The year segment in the claim's words: the first piece of splitting
the date string on `:` then on `-` when that piece is a 4-character
all-digit token, and `"unknown-year"` otherwise (including absent date). -/
def yearSegment (date : Option PyStr) : PyStr :=
  match date with
  | none => "unknown-year".toList
  | some ds =>
    let y := firstToken ds
    if y.length = 4 ∧ y.all Char.isDigit then y else "unknown-year".toList

/-- The source's year fallback agrees with the claim's year rule. -/
theorem year_agrees (date : Option PyStr) :
    (extract_year_from_date date).getD "unknown-year".toList =
      yearSegment date := by
  rcases date with _ | ds
  · rfl
  · simp only [extract_year_from_date, yearSegment]
    by_cases hds : ds = []
    · rw [if_pos hds]
      subst hds
      decide
    · rw [if_neg hds]
      generalize firstToken ds = y
      by_cases hne : y = []
      · subst hne
        decide
      · by_cases hlen : y.length = 4 <;>
          by_cases hdig : y.all Char.isDigit = true <;>
            simp [hne, hlen, hdig]

/-- Claim C5 counterexample: a record whose state is `"!!!"` (truthy but
sanitizing to nothing) makes `ingest_photo` raise a `TypeError`
(`dest_dir / None`) instead of treating the segment as absent. -/
theorem claimC5_counterexample :
    ingest_dest "photos".toList
      { sampleMeta with
        location := some (Location.mk none none (some "!!!".toList) none) }
      "a.jpg".toList = none := by
  decide

/-- Claim C5 (amended): the destination is
`root / year / location segments / filename` with the year rule exactly
as claimed and the location segments the sanitized state then sanitized
city; `unknown-location` is used when the location is absent, falsy, or
has neither state nor city; but a truthy state or city that sanitizes to
empty makes resolution fail (TypeError) rather than being dropped. -/
theorem claimC5_theorem (root : PyStr) (m : PhotoMetadata) (fn : PyStr) :
    (m.location = none →
      ingest_dest root m fn =
        some [root, yearSegment m.date, "unknown-location".toList, fn]) ∧
    (∀ loc, m.location = some loc → locTruthy loc = false →
      ingest_dest root m fn =
        some [root, yearSegment m.date, "unknown-location".toList, fn]) ∧
    (∀ loc, m.location = some loc → locTruthy loc = true →
      strTruthy loc.state = false → strTruthy loc.city = false →
      ingest_dest root m fn =
        some [root, yearSegment m.date, "unknown-location".toList, fn]) ∧
    (∀ loc s ss, m.location = some loc → loc.state = some s → s ≠ [] →
      sanitize_location s = some ss →
      (strTruthy loc.city = false →
        ingest_dest root m fn = some [root, yearSegment m.date, ss, fn]) ∧
      (∀ cty cs, loc.city = some cty → cty ≠ [] →
        sanitize_location cty = some cs →
        ingest_dest root m fn = some [root, yearSegment m.date, ss, cs, fn])) ∧
    (∀ loc cty cs, m.location = some loc → strTruthy loc.state = false →
      loc.city = some cty → cty ≠ [] → sanitize_location cty = some cs →
      ingest_dest root m fn = some [root, yearSegment m.date, cs, fn]) ∧
    (∀ loc s, m.location = some loc → loc.state = some s → s ≠ [] →
      sanitize_location s = none → ingest_dest root m fn = none) ∧
    (∀ loc cty, m.location = some loc → loc.city = some cty → cty ≠ [] →
      sanitize_location cty = none → ingest_dest root m fn = none) := by
  refine ⟨?_, ?_, ?_, ?_, ?_, ?_, ?_⟩
  · intro hloc
    simp only [ingest_dest, hloc, year_agrees]
  · intro loc hloc htru
    simp only [ingest_dest, hloc, year_agrees]
    simp [htru]
  · intro loc hloc htru hstate hcity
    simp only [ingest_dest, hloc, year_agrees]
    simp [htru, hstate, hcity]
  · intro loc s ss hloc hstate hsne hsan
    have htru : locTruthy loc = true := by
      simp [locTruthy, strTruthy, hstate, hsne]
    constructor
    · intro hcity
      simp only [ingest_dest, hloc, year_agrees]
      simp [strTruthy] at hcity
      simp [htru, hstate, hcity, strTruthy, hsne, hsan]
    · intro cty cs hcity hctyne hcsan
      simp only [ingest_dest, hloc, year_agrees]
      simp [htru, hstate, hcity, strTruthy, hsne, hctyne, hsan, hcsan]
  · intro loc cty cs hloc hstate hcity hctyne hcsan
    have htru : locTruthy loc = true := by
      simp [locTruthy, strTruthy, hcity, hctyne]
    simp only [ingest_dest, hloc, year_agrees]
    simp [strTruthy] at hstate
    simp [htru, hstate, hcity, strTruthy, hctyne, hcsan]
  · intro loc s hloc hstate hsne hsan
    have htru : locTruthy loc = true := by
      simp [locTruthy, strTruthy, hstate, hsne]
    simp only [ingest_dest, hloc]
    simp [htru, hstate, strTruthy, hsne, hsan]
  · intro loc cty hloc hcity hctyne hcsan
    have htru : locTruthy loc = true := by
      simp [locTruthy, strTruthy, hcity, hctyne]
    simp only [ingest_dest, hloc]
    simp [htru, hcity, strTruthy, hctyne, hcsan]

/-- Claim C5 witness: state Washington, city Seattle, a 2025 EXIF date. -/
theorem claimC5_witness :
    ingest_dest "photos".toList
      { sampleMeta with
        date := some "2025:10:18 22:33:24".toList,
        location := some
          (Location.mk none (some "Seattle".toList) (some "Washington".toList) none) }
      "a.jpg".toList =
      some ["photos".toList,
        yearSegment (some "2025:10:18 22:33:24".toList),
        "washington".toList, "seattle".toList, "a.jpg".toList] :=
  by
  have T := claimC5_theorem "photos".toList
    { sampleMeta with
      date := some "2025:10:18 22:33:24".toList,
      location := some
        (Location.mk none (some "Seattle".toList) (some "Washington".toList) none) }
    "a.jpg".toList
  exact (T.2.2.2.1
    (Location.mk none (some "Seattle".toList) (some "Washington".toList) none)
    "Washington".toList "washington".toList rfl rfl (by decide) (by decide)).2
    "Seattle".toList "seattle".toList rfl (by decide) (by decide)

/-! ## Claims C4 and C9 -/

theorem pyLeB_total (a b : PyStr) : pyLeB a b = true ∨ pyLeB b a = true := by
  induction a generalizing b with
  | nil => exact Or.inl rfl
  | cons c as ih =>
    rcases b with _ | ⟨d, bs⟩
    · exact Or.inr rfl
    · unfold pyLeB
      rcases Nat.lt_trichotomy c.toNat d.toNat with h | h | h
      · left
        rw [if_pos h]
      · rcases ih bs with h2 | h2
        · left
          rw [if_neg (by rw [h]; exact lt_irrefl _), if_pos h]
          exact h2
        · right
          rw [if_neg (by rw [h]; exact lt_irrefl _), if_pos h.symm]
          exact h2
      · right
        rw [if_pos h]

theorem pyLeB_trans {a b c : PyStr} (hab : pyLeB a b = true)
    (hbc : pyLeB b c = true) : pyLeB a c = true := by
  induction a generalizing b c with
  | nil => rfl
  | cons x as ih =>
    rcases b with _ | ⟨y, bs⟩
    · exact absurd hab (by simp [pyLeB])
    · rcases c with _ | ⟨z, cs⟩
      · exact absurd hbc (by simp [pyLeB])
      · unfold pyLeB at hab hbc ⊢
        by_cases h1 : x.toNat < y.toNat
        · by_cases h2 : y.toNat < z.toNat
          · rw [if_pos (by omega)]
          · by_cases h3 : y.toNat = z.toNat
            · rw [if_pos (by omega)]
            · rw [if_neg h2, if_neg h3] at hbc
              exact absurd hbc (by simp)
        · by_cases h1e : x.toNat = y.toNat
          · rw [if_neg h1, if_pos h1e] at hab
            by_cases h2 : y.toNat < z.toNat
            · rw [if_pos (by omega)]
            · by_cases h3 : y.toNat = z.toNat
              · rw [if_neg h2, if_pos h3] at hbc
                rw [if_neg (by omega), if_pos (by omega)]
                exact ih hab hbc
              · rw [if_neg h2, if_neg h3] at hbc
                exact absurd hbc (by simp)
          · rw [if_neg h1, if_neg h1e] at hab
            exact absurd hab (by simp)

theorem mem_insertLe {x a : PyStr} {l : List PyStr} :
    x ∈ insertLe a l ↔ x = a ∨ x ∈ l := by
  induction l with
  | nil => simp [insertLe]
  | cons b bs ih =>
    unfold insertLe
    by_cases h : pyLeB a b = true
    · rw [if_pos h]
      simp [List.mem_cons]
    · rw [if_neg h]
      simp only [List.mem_cons, ih]
      tauto

theorem mem_sortPaths {x : PyStr} {l : List PyStr} :
    x ∈ sortPaths l ↔ x ∈ l := by
  induction l with
  | nil => simp [sortPaths]
  | cons a as ih =>
    unfold sortPaths
    rw [mem_insertLe, List.mem_cons, ih]

theorem pairwise_insertLe {a : PyStr} {l : List PyStr}
    (h : l.Pairwise (fun x y => pyLeB x y = true)) :
    (insertLe a l).Pairwise (fun x y => pyLeB x y = true) := by
  induction l with
  | nil => simp [insertLe]
  | cons b bs ih =>
    unfold insertLe
    by_cases hab : pyLeB a b = true
    · rw [if_pos hab]
      apply List.Pairwise.cons
      · intro x hx
        rcases List.mem_cons.mp hx with h2 | h2
        · rw [h2]
          exact hab
        · exact pyLeB_trans hab (List.rel_of_pairwise_cons h h2)
      · exact h
    · rw [if_neg hab]
      apply List.Pairwise.cons
      · intro x hx
        rcases mem_insertLe.mp hx with h2 | h2
        · rw [h2]
          rcases pyLeB_total a b with h3 | h3
          · exact absurd h3 hab
          · exact h3
        · exact List.rel_of_pairwise_cons h h2
      · exact ih (List.Pairwise.of_cons h)

theorem pairwise_sortPaths (l : List PyStr) :
    (sortPaths l).Pairwise (fun x y => pyLeB x y = true) := by
  induction l with
  | nil => exact List.Pairwise.nil
  | cons a as ih =>
    unfold sortPaths
    exact pairwise_insertLe ih

/-- Membership in the scan loop's result. -/
theorem scanList_mem {entries : List FsEntry} {filters : FilterSpec}
    {res : List PyStr} (h : scanList entries filters = some res) :
    ∀ p, p ∈ res ↔ ∃ e ∈ entries, e.relPath = p ∧ isImage e.relPath = true ∧
      matches_filters e.meta filters = some true := by
  induction entries generalizing res with
  | nil =>
    intro p
    unfold scanList at h
    rw [← Option.some.inj h]
    simp
  | cons e es ih =>
    intro p
    unfold scanList at h
    by_cases himg : isImage e.relPath = true
    · rw [if_pos himg] at h
      rcases hm : matches_filters e.meta filters with _ | b
      · rw [hm] at h
        exact Option.noConfusion h
      · rw [hm] at h
        cases b with
        | true =>
          rcases hrest : scanList es filters with _ | res0
          · rw [hrest] at h
            exact Option.noConfusion h
          · rw [hrest] at h
            have hres : e.relPath :: res0 = res := by
              simpa using h
            rw [← hres]
            constructor
            · intro hp
              rcases List.mem_cons.mp hp with h2 | h2
              · exact ⟨e, List.mem_cons_self e es, h2.symm, himg, hm⟩
              · rcases (ih hrest p).mp h2 with ⟨e2, he2, hrel, himg2, hm2⟩
                exact ⟨e2, List.mem_cons_of_mem e he2, hrel, himg2, hm2⟩
            · rintro ⟨e2, he2, hrel, himg2, hm2⟩
              rcases List.mem_cons.mp he2 with h2 | h2
              · apply List.mem_cons.mpr
                left
                rw [← hrel, h2]
              · apply List.mem_cons.mpr
                right
                exact (ih hrest p).mpr ⟨e2, h2, hrel, himg2, hm2⟩
        | false =>
          rw [ih h p]
          constructor
          · rintro ⟨e2, he2, hrel, himg2, hm2⟩
            exact ⟨e2, List.mem_cons_of_mem e he2, hrel, himg2, hm2⟩
          · rintro ⟨e2, he2, hrel, himg2, hm2⟩
            rcases List.mem_cons.mp he2 with h2 | h2
            · rw [h2] at hm2
              rw [hm2] at hm
              exact absurd (Option.some.inj hm) (by decide)
            · exact ⟨e2, h2, hrel, himg2, hm2⟩
    · rw [if_neg himg] at h
      rw [ih h p]
      constructor
      · rintro ⟨e2, he2, hrel, himg2, hm2⟩
        exact ⟨e2, List.mem_cons_of_mem e he2, hrel, himg2, hm2⟩
      · rintro ⟨e2, he2, hrel, himg2, hm2⟩
        rcases List.mem_cons.mp he2 with h2 | h2
        · rw [h2] at himg2
          exact absurd himg2 himg
        · exact ⟨e2, h2, hrel, himg2, hm2⟩

/-- A record carrying the single keyword `street`. -/
def mStreet : PhotoMetadata := { sampleMeta with keywords := ["street".toList] }

/-- A keyword filter spec matching `mStreet`. -/
def streetFilters : FilterSpec := [(kwKey, "street".toList)]

/-- A filtered collection with no members and no cover. -/
def cEx : Collection := Collection.mk [] [] streetFilters

/-- Two matching photos, one inside the exports staging subdirectory. -/
def entriesEx : List FsEntry :=
  [FsEntry.mk "2025/b.jpg".toList mStreet, FsEntry.mk "exports/a.jpg".toList mStreet]

/-- The sorted member list computed from `entriesEx`. -/
def resEx : List PyStr := ["2025/b.jpg".toList, "exports/a.jpg".toList]

/-- Claim C4 counterexample: the claim says files under the `exports`
staging subdirectory are excluded from a filtered sync, but `scan_photos`
scans `photos/` with `rglob` and no exclusion, so `exports/a.jpg` becomes
a member (and here the cover). -/
theorem claimC4_counterexample :
    sync_single_collection cEx [FsEntry.mk "exports/a.jpg".toList mStreet] =
      some (Collection.mk [PhotoEntry.mk "exports/a.jpg".toList [] []]
        "exports/a.jpg".toList streetFilters) := by
  decide

/-- Claim C4 (amended): the member list of a filtered sync is exactly the
set of image files anywhere under the photo root — the `exports` staging
subdirectory included — whose metadata matches, in sorted relative-path
order, independent of the previous member list and cover. -/
theorem claimC4_theorem (c : Collection) (entries : List FsEntry)
    (res : List PyStr) (hf : c.filters ≠ [])
    (hscan : scan_photos entries c.filters = some res) :
    (∃ c2, sync_single_collection c entries = some c2 ∧
      c2.photos = res.map (fun p => PhotoEntry.mk p [] [])) ∧
    (∀ p, p ∈ res ↔ ∃ e ∈ entries, e.relPath = p ∧ isImage e.relPath = true ∧
      matches_filters e.meta c.filters = some true) ∧
    res.Pairwise (fun a b => pyLeB a b = true) ∧
    (∀ ps cov,
      (sync_single_collection (Collection.mk ps cov c.filters) entries).map
        Collection.photos = some (res.map (fun p => PhotoEntry.mk p [] []))) := by
  obtain ⟨res0, hres0, hsort⟩ :
      ∃ res0, scanList entries c.filters = some res0 ∧ res = sortPaths res0 := by
    unfold scan_photos at hscan
    rcases he : scanList entries c.filters with _ | r0
    · rw [he] at hscan
      exact Option.noConfusion hscan
    · rw [he] at hscan
      refine ⟨r0, rfl, ?_⟩
      have h2 : sortPaths r0 = res := by
        simpa using hscan
      exact h2.symm
  refine ⟨?_, ?_, ?_, ?_⟩
  · unfold sync_single_collection
    rw [if_neg hf, hscan]
    exact ⟨_, rfl, rfl⟩
  · intro p
    rw [hsort, mem_sortPaths]
    exact scanList_mem hres0 p
  · rw [hsort]
    exact pairwise_sortPaths res0
  · intro ps cov
    unfold sync_single_collection
    rw [if_neg hf, hscan]
    rfl

/-- Claim C4 witness: the amended theorem at `entriesEx`, whose sorted
match list is `resEx` (the exports file included). -/
theorem claimC4_witness :
    (∃ c2, sync_single_collection cEx entriesEx = some c2 ∧
      c2.photos = resEx.map (fun p => PhotoEntry.mk p [] [])) ∧
    (∀ p, p ∈ resEx ↔ ∃ e ∈ entriesEx, e.relPath = p ∧ isImage e.relPath = true ∧
      matches_filters e.meta cEx.filters = some true) ∧
    resEx.Pairwise (fun a b => pyLeB a b = true) ∧
    (∀ ps cov,
      (sync_single_collection (Collection.mk ps cov cEx.filters) entriesEx).map
        Collection.photos = some (resEx.map (fun p => PhotoEntry.mk p [] []))) :=
  claimC4_theorem cEx entriesEx resEx (by decide) (by decide)

/-- Claim C9: the cover policy of a filtered sync — first sorted match
when there was no cover, cleared when nothing matches, untouched
otherwise (even if the old cover is not a member). -/
theorem claimC9_theorem (c : Collection) (entries : List FsEntry)
    (res : List PyStr) (hf : c.filters ≠ [])
    (hscan : scan_photos entries c.filters = some res) :
    (∀ p rest, res = p :: rest → c.cover_path = [] →
      ∃ c2, sync_single_collection c entries = some c2 ∧ c2.cover_path = p) ∧
    (res = [] →
      ∃ c2, sync_single_collection c entries = some c2 ∧ c2.cover_path = []) ∧
    (∀ p rest, res = p :: rest → c.cover_path ≠ [] →
      ∃ c2, sync_single_collection c entries = some c2 ∧
        c2.cover_path = c.cover_path) := by
  refine ⟨?_, ?_, ?_⟩
  · intro p rest hres hcov
    unfold sync_single_collection
    rw [if_neg hf, hscan, hres]
    refine ⟨_, rfl, ?_⟩
    simp [hcov]
  · intro hres
    unfold sync_single_collection
    rw [if_neg hf, hscan, hres]
    exact ⟨_, rfl, rfl⟩
  · intro p rest hres hcov
    unfold sync_single_collection
    rw [if_neg hf, hscan, hres]
    refine ⟨_, rfl, ?_⟩
    simp [hcov]

/-- Claim C9 witness: syncing `cEx` (no cover) over `entriesEx` sets the
cover to the first sorted match. -/
theorem claimC9_witness :
    ∃ c2, sync_single_collection cEx entriesEx = some c2 ∧
      c2.cover_path = "2025/b.jpg".toList :=
  (claimC9_theorem cEx entriesEx resEx (by decide) (by decide)).1
    "2025/b.jpg".toList ["exports/a.jpg".toList] rfl rfl

/-! ## Claim C8 -/

/-- Claim C8: `get_metadata` fails exactly when the file does not exist;
for an existing file it always returns a record, whatever the read, XMP
or EXIF outcomes were; and an absorbed XMP (resp. EXIF) failure only
leaves the XMP-derived (resp. EXIF-derived) fields at their absent
defaults. -/
theorem claimC8_theorem (fs : FileSystem) (p : String) :
    (get_metadata fs p = none ↔ fs.files p = none) ∧
    (∀ f, fs.files p = some f →
      ∃ md, get_metadata fs p = some md ∧
        (read_xmp_from_jpg f = none →
          md.keywords = [] ∧ md.location = none ∧ md.rating = none) ∧
        (exifEmpty (read_exif_data fs.pil f) = true →
          md.date = none ∧ md.camera_make = none ∧ md.camera_model = none ∧
          md.lens_model = none ∧ md.focal_length = none ∧ md.aperture = none ∧
          md.shutter_speed = none ∧ md.iso = none)) := by
  constructor
  · unfold get_metadata
    rcases hf : fs.files p with _ | f
    · simp
    · simp
  · intro f hf
    unfold get_metadata
    rw [hf]
    refine ⟨_, rfl, ?_, ?_⟩
    · intro hxmp
      rw [hxmp]
      by_cases he : exifEmpty (read_exif_data fs.pil f) = true
      · rw [if_pos he]
        exact ⟨rfl, rfl, rfl⟩
      · rw [if_neg he]
        exact ⟨rfl, rfl, rfl⟩
    · intro hexif
      rw [if_pos hexif]
      rcases hx : read_xmp_from_jpg f with _ | x
      · exact ⟨rfl, rfl, rfl, rfl, rfl, rfl, rfl, rfl⟩
      · rcases x with ⟨xk, xl, xr⟩
        rcases xk with _ | kws <;> rcases xl with _ | ld <;> rcases xr with _ | rt <;>
          exact ⟨rfl, rfl, rfl, rfl, rfl, rfl, rfl, rfl⟩

/-- A file whose read raises and whose XMP extraction would raise too. -/
def fBroken : FsFile :=
  FsFile.mk (Except.error "io error".toList)
    (fun _ => Except.error "parse error".toList)
    (ExifData.mk none none none none none none none none)

/-- A file system in which only `"photo.jpg"` exists, Pillow available. -/
def fsEx : FileSystem :=
  FileSystem.mk true
    (fun q => if q = "photo.jpg" then some fBroken else none)

/-- Claim C8 witness: on the broken-but-existing file a record is still
returned, with every field at its default. -/
theorem claimC8_witness :
    ∃ md, get_metadata fsEx "photo.jpg" = some md ∧
      (read_xmp_from_jpg fBroken = none →
        md.keywords = [] ∧ md.location = none ∧ md.rating = none) ∧
      (exifEmpty (read_exif_data fsEx.pil fBroken) = true →
        md.date = none ∧ md.camera_make = none ∧ md.camera_model = none ∧
        md.lens_model = none ∧ md.focal_length = none ∧ md.aperture = none ∧
        md.shutter_speed = none ∧ md.iso = none) :=
  (claimC8_theorem fsEx "photo.jpg").2 fBroken (by
    show (if ("photo.jpg" : String) = "photo.jpg" then some fBroken else none) =
      some fBroken
    rw [if_pos rfl])
